import Mathlib

/-!
Verification of the kat log-streaming orchestrator (github.com/frobware/kat).

The development shallowly embeds the Go sources:
  * the `namespace` package: glob/literal name patterns (`newPattern`,
    `Pattern.match`, `ParsePatterns`) and scope resolution
    (`InformerWatcher.shouldIncludeNamespace`);
  * the `kat` package: the stream supervisor (`startLogStream`,
    `stopLogStream`, `StopStreaming`) and the per-container sink logic of
    `streamPodLogs`;
  * the retry machinery from `k8s.io/apimachinery/pkg/util/wait`
    (`Backoff.Step`, `Jitter`, `ExponentialBackoff`), which the supervisor
    calls.

Strings are modelled as lists of unicode scalar values, which agrees with
the byte-level Go code on all ASCII inputs used by the claims.  Durations
are modelled as rationals (milliseconds); the nanosecond truncation that
`time.Duration` performs does not affect any ordering fact proved here.
-/

namespace KatVerify

/-- Go strings, viewed as lists of characters. -/
abbrev GoStr := List Char

/-! ### Embedding of Go path/filepath Match (used by Pattern.match)

`getEsc`, `parseRanges` (the range-parsing loop inside `matchChunk`),
`matchChunk`, `dropStars`/`scanBody` (= `scanChunk`), `starLoop` (the
backtracking loop of the `*` case), `checkRemaining` (the trailing
syntax-validity loop) and `goMatch` (= `filepath.Match` on non-Windows,
with path separator `/`) are translated clause by clause from the Go
standard library source that the repository calls.  `none` plays the role
of `ErrBadPattern`.  Recursive helpers return their leftover input inside
a subtype recording that input was consumed; this carries the termination
argument and changes nothing about the computed values. -/

/-- Embeds `getEsc` from filepath/match.go: reads one (possibly escaped)
character of a character class, failing on `-`, `]`, a dangling escape, or
an exhausted chunk. -/
def getEsc : (c : GoStr) → Option (Char × { rest : GoStr // rest.length < c.length })
  | [] => none
  | a :: t =>
    if a = '-' ∨ a = ']' then none
    else if a = '\\' then
      match t with
      | [] => none
      | r :: t2 =>
        if t2 = [] then none
        else some (r, ⟨t2, by simp only [List.length_cons]; omega⟩)
    else if t = [] then none
    else some (a, ⟨t, by simp only [List.length_cons]; omega⟩)

/-- Embeds the range-parsing loop in the `[` case of `matchChunk` from
filepath/match.go: given the character `r` read from the name, scans
ranges until the closing `]`, returning whether `r` matched one of them
together with the rest of the chunk. -/
def parseRanges (r : Char) (chunk : GoStr) (m : Bool) (nrange : Nat) :
    Option (Bool × { rest : GoStr // rest.length < chunk.length }) :=
  if h0 : chunk.head? = some ']' ∧ 0 < nrange then
    some (m, ⟨chunk.tail, by
      rcases chunk with _ | ⟨a, t⟩
      · simp at h0
      · simp⟩)
  else
    match getEsc chunk with
    | none => none
    | some (lo, ⟨rest1, h1⟩) =>
      if rest1.head? = some '-' then
        match getEsc rest1.tail with
        | none => none
        | some (hi, ⟨rest3, h3⟩) =>
          match parseRanges r rest3 (m || (lo ≤ r && r ≤ hi)) (nrange + 1) with
          | none => none
          | some (mm, ⟨t, ht⟩) =>
            some (mm, ⟨t, by
              simp only [List.length_tail] at h3
              omega⟩)
      else
        match parseRanges r rest1 (m || (lo ≤ r && r ≤ lo)) (nrange + 1) with
        | none => none
        | some (mm, ⟨t, ht⟩) => some (mm, ⟨t, by omega⟩)
termination_by chunk.length
decreasing_by
  · simp only [List.length_tail] at h3
    omega
  · omega

/-- Embeds `matchChunk` from filepath/match.go: matches the shortest
prefix of `s` that the star-free chunk can consume, returning the tail of
`s` and whether the match succeeded; after a failure the rest of the chunk
is still parsed so syntax errors are detected. -/
def matchChunk (chunk s : GoStr) (failed : Bool) : Option (GoStr × Bool) :=
  match chunk with
  | [] => if failed then some ([], false) else some (s, true)
  | c :: rest =>
    let failed1 := failed || s.isEmpty
    if c = '[' then
      match parseRanges (if failed1 then Char.ofNat 0 else s.headD (Char.ofNat 0))
          (if rest.head? = some '^' then rest.tail else rest) false 0 with
      | none => none
      | some (mtch, ⟨chunk2, h2⟩) =>
        matchChunk chunk2 (if failed1 then s else s.tail)
          (failed1 || (mtch == decide (rest.head? = some '^')))
    else if c = '?' then
      if failed1 then matchChunk rest s true
      else matchChunk rest s.tail (decide (s.headD (Char.ofNat 0) = '/'))
    else if c = '\\' then
      match rest with
      | [] => none
      | e :: rest2 =>
        if failed1 then matchChunk rest2 s true
        else matchChunk rest2 s.tail (!(e == s.headD (Char.ofNat 0)))
    else
      if failed1 then matchChunk rest s true
      else matchChunk rest s.tail (!(c == s.headD (Char.ofNat 0)))
termination_by chunk.length
decreasing_by
  · rename_i h2
    simp only [List.length_cons]
    split at h2
    · simp only [List.length_tail] at h2
      omega
    · omega
  all_goals simp only [List.length_cons]; omega

/-- Embeds the leading-star loop of `scanChunk` from filepath/match.go. -/
def dropStars : GoStr → Bool × GoStr
  | [] => (false, [])
  | c :: rest =>
    if c = '*' then (true, (dropStars rest).2)
    else (false, c :: rest)

/-- Embeds the scan loop of `scanChunk` from filepath/match.go: splits off
the chunk up to (but not including) the next unbracketed star. -/
def scanBody : GoStr → Bool → GoStr × GoStr
  | [], _ => ([], [])
  | c :: rest, inrange =>
    if c = '\\' then
      match rest with
      | [] => (['\\'], [])
      | d :: rest2 =>
        let p := scanBody rest2 inrange
        ('\\' :: d :: p.1, p.2)
    else if c = '[' then
      let p := scanBody rest true
      (c :: p.1, p.2)
    else if c = ']' then
      let p := scanBody rest false
      (c :: p.1, p.2)
    else if c = '*' then
      if inrange then
        let p := scanBody rest inrange
        (c :: p.1, p.2)
      else ([], c :: rest)
    else
      let p := scanBody rest inrange
      (c :: p.1, p.2)

/-- Embeds `scanChunk` from filepath/match.go. -/
def scanChunk (pattern : GoStr) : Bool × GoStr × GoStr :=
  ((dropStars pattern).1, (scanBody (dropStars pattern).2 false).1,
    (scanBody (dropStars pattern).2 false).2)

theorem scanBody_length (p : GoStr) (ir : Bool) :
    (scanBody p ir).1.length + (scanBody p ir).2.length = p.length := by
  match p with
  | [] => simp [scanBody.eq_def]
  | c :: rest =>
    rw [scanBody.eq_def]
    simp only
    split
    · rename_i hc
      match rest with
      | [] => simp
      | d :: rest2 =>
        have := scanBody_length rest2 ir
        simp only [List.length_cons]
        omega
    · split
      · have := scanBody_length rest true
        simp only [List.length_cons]
        omega
      · split
        · have := scanBody_length rest false
          simp only [List.length_cons]
          omega
        · split
          · split
            · have := scanBody_length rest ir
              simp only [List.length_cons]
              omega
            · simp
          · have := scanBody_length rest ir
            simp only [List.length_cons]
            omega

theorem scanBody_chunk_pos {c : Char} (rest : GoStr) (h : c ≠ '*') (ir : Bool) :
    1 ≤ (scanBody (c :: rest) ir).1.length := by
  rw [scanBody.eq_def]
  simp only [h]
  split
  · rename_i hc
    match rest with
    | [] => simp
    | d :: rest2 => simp
  · split
    · simp
    · split
      · simp
      · simp

theorem dropStars_length (p : GoStr) : (dropStars p).2.length ≤ p.length := by
  match p with
  | [] => rw [dropStars.eq_def]
  | c :: rest =>
    rw [dropStars.eq_def]
    simp only
    split
    · have := dropStars_length rest
      simp only [List.length_cons]
      omega
    · simp

theorem dropStars_true_lt {p : GoStr} (h : (dropStars p).1 = true) :
    (dropStars p).2.length < p.length := by
  match p with
  | [] => rw [dropStars.eq_def] at h; exact absurd h (by simp)
  | c :: rest =>
    rw [dropStars.eq_def]
    simp only
    split
    · have := dropStars_length rest
      simp only [List.length_cons]
      omega
    · rename_i hc
      rw [dropStars.eq_def] at h
      simp [hc] at h

theorem dropStars_false_eq {p : GoStr} (h : (dropStars p).1 = false) :
    (dropStars p).2 = p := by
  match p with
  | [] => rw [dropStars.eq_def]
  | c :: rest =>
    rw [dropStars.eq_def] at h ⊢
    simp only at h ⊢
    split at h
    · exact absurd h (by simp)
    · simp_all

theorem dropStars_false_head {c : Char} {rest : GoStr}
    (h : (dropStars (c :: rest)).1 = false) : c ≠ '*' := by
  rw [dropStars.eq_def] at h
  simp only at h
  split at h
  · exact absurd h (by simp)
  · assumption

theorem scanChunk_rest_length {p : GoStr} (h : p ≠ []) :
    (scanChunk p).2.2.length < p.length := by
  have h1 := scanBody_length (dropStars p).2 false
  rcases hds : (dropStars p).1 with _ | _
  · have heq := dropStars_false_eq hds
    match p with
    | [] => exact absurd rfl h
    | c :: rest =>
      have hc : c ≠ '*' := dropStars_false_head hds
      have h2 := scanBody_chunk_pos rest hc false
      simp only [scanChunk]
      rw [heq] at h1 ⊢
      simp only [List.length_cons] at h1 ⊢
      omega
  · have hlt := dropStars_true_lt hds
    simp only [scanChunk]
    omega

/-- Embeds the backtracking loop of the star case inside `Match` from
filepath/match.go: looks for the shortest skip after which the chunk
matches, never skipping over a path separator.  Result `some (some t)`
commits to tail `t`, `some none` means the loop exhausted the name, and
`none` propagates `ErrBadPattern`. -/
def starLoop (chunk name : GoStr) (restEmpty : Bool) : Option (Option GoStr) :=
  match name with
  | [] => some none
  | c :: tailName =>
    if c = '/' then some none
    else
      match matchChunk chunk tailName false with
      | none => none
      | some (t, ok) =>
        if ok then
          if restEmpty ∧ t ≠ [] then starLoop chunk tailName restEmpty
          else some (some t)
        else starLoop chunk tailName restEmpty

/-- Embeds the final syntax check of `Match` from filepath/match.go: before
returning a non-error failure, the remainder of the pattern is checked to
be well-formed. -/
def checkRemaining (pattern : GoStr) : Option Unit :=
  if h : pattern = [] then some ()
  else
    match matchChunk (scanChunk pattern).2.1 [] false with
    | none => none
    | some _ => checkRemaining (scanChunk pattern).2.2
termination_by pattern.length
decreasing_by exact scanChunk_rest_length h

/-- Embeds `Match` from path/filepath (non-Windows, separator `/`), the
function `Pattern.match` and `newPattern` call.  `none` is `ErrBadPattern`. -/
def goMatch (pattern name : GoStr) : Option Bool :=
  if h : pattern = [] then some name.isEmpty
  else
    if (scanChunk pattern).1 = true ∧ (scanChunk pattern).2.1 = [] then
      some (!(name.contains '/'))
    else
      match matchChunk (scanChunk pattern).2.1 name false with
      | none => none
      | some (t, ok) =>
        if ok ∧ (t = [] ∨ (scanChunk pattern).2.2 ≠ []) then
          goMatch (scanChunk pattern).2.2 t
        else if (scanChunk pattern).1 then
          match starLoop (scanChunk pattern).2.1 name ((scanChunk pattern).2.2 = []) with
          | none => none
          | some (some t2) => goMatch (scanChunk pattern).2.2 t2
          | some none =>
            match checkRemaining (scanChunk pattern).2.2 with
            | none => none
            | some _ => some false
        else
          match checkRemaining (scanChunk pattern).2.2 with
          | none => none
          | some _ => some false
termination_by pattern.length
decreasing_by
  all_goals exact scanChunk_rest_length h

/-! ### Fuelled evaluation clones

The functions above use well-founded recursion, which the kernel cannot
reduce, so concrete instances could not be settled by `decide`.  The
following clones are structurally recursive on an explicit fuel bound and
compute the same values whenever the fuel exceeds the pattern length
consumed per step, as the equivalence theorems below show; `goMatchEval`
supplies always-sufficient fuel.  Concrete evaluations in the claim
theorems go through these clones. -/

/-- Fuelled clone of `parseRanges` (without the subtype refinement). -/
def parseRangesF : Nat → Char → GoStr → Bool → Nat → Option (Bool × GoStr)
  | 0, _, _, _, _ => none
  | fuel + 1, r, chunk, m, nrange =>
    if chunk.head? = some ']' ∧ 0 < nrange then some (m, chunk.tail)
    else
      match getEsc chunk with
      | none => none
      | some (lo, ⟨rest1, _⟩) =>
        if rest1.head? = some '-' then
          match getEsc rest1.tail with
          | none => none
          | some (hi, ⟨rest3, _⟩) =>
            parseRangesF fuel r rest3 (m || (lo ≤ r && r ≤ hi)) (nrange + 1)
        else
          parseRangesF fuel r rest1 (m || (lo ≤ r && r ≤ lo)) (nrange + 1)

theorem parseRangesF_eq :
    ∀ (fuel : Nat) (r : Char) (chunk : GoStr) (m : Bool) (nrange : Nat),
      chunk.length < fuel →
      parseRangesF fuel r chunk m nrange =
        (parseRanges r chunk m nrange).map (fun x => (x.1, x.2.1)) := by
  intro fuel
  induction fuel with
  | zero =>
    intro r chunk m n h
    omega
  | succ fuel ih =>
    intro r chunk m n h
    rw [parseRangesF, parseRanges]
    by_cases h0 : chunk.head? = some ']' ∧ 0 < n
    · simp [h0]
    · simp only [h0, dif_neg, if_neg]
      rcases hg : getEsc chunk with _ | ⟨lo, rest1, h1⟩
      · simp
      · simp only
        by_cases hr : rest1.head? = some '-'
        · simp only [hr, if_pos]
          rcases hg2 : getEsc rest1.tail with _ | ⟨hi, rest3, h3⟩
          · simp
          · simp only
            rw [ih r rest3 _ _ (by
              simp only [List.length_tail] at h3
              omega)]
            rcases parseRanges r rest3 (m || (lo ≤ r && r ≤ hi)) (n + 1) with
              _ | ⟨mm, t, ht⟩
            · simp
            · simp
        · simp only [hr, if_neg]
          rw [ih r rest1 _ _ (by omega)]
          rcases parseRanges r rest1 (m || (lo ≤ r && r ≤ lo)) (n + 1) with
            _ | ⟨mm, t, ht⟩
          · simp
          · simp

/-- Fuelled clone of `matchChunk`. -/
def matchChunkF : Nat → GoStr → GoStr → Bool → Option (GoStr × Bool)
  | 0, _, _, _ => none
  | fuel + 1, chunk, s, failed =>
    match chunk with
    | [] => if failed then some ([], false) else some (s, true)
    | c :: rest =>
      let failed1 := failed || s.isEmpty
      if c = '[' then
        match parseRangesF
            ((if rest.head? = some '^' then rest.tail else rest).length + 1)
            (if failed1 then Char.ofNat 0 else s.headD (Char.ofNat 0))
            (if rest.head? = some '^' then rest.tail else rest) false 0 with
        | none => none
        | some (mtch, chunk2) =>
          matchChunkF fuel chunk2 (if failed1 then s else s.tail)
            (failed1 || (mtch == decide (rest.head? = some '^')))
      else if c = '?' then
        if failed1 then matchChunkF fuel rest s true
        else matchChunkF fuel rest s.tail (decide (s.headD (Char.ofNat 0) = '/'))
      else if c = '\\' then
        match rest with
        | [] => none
        | e :: rest2 =>
          if failed1 then matchChunkF fuel rest2 s true
          else matchChunkF fuel rest2 s.tail (!(e == s.headD (Char.ofNat 0)))
      else
        if failed1 then matchChunkF fuel rest s true
        else matchChunkF fuel rest s.tail (!(c == s.headD (Char.ofNat 0)))

theorem matchChunkF_eq :
    ∀ (fuel : Nat) (chunk s : GoStr) (failed : Bool),
      chunk.length < fuel →
      matchChunkF fuel chunk s failed = matchChunk chunk s failed := by
  intro fuel
  induction fuel with
  | zero =>
    intro chunk s failed h
    omega
  | succ fuel ih =>
    intro chunk s failed h
    rw [matchChunkF.eq_def, matchChunk.eq_def]
    rcases chunk with _ | ⟨c, rest⟩
    · rfl
    · dsimp only
      simp only [List.length_cons] at h
      have hle : (if rest.head? = some '^' then rest.tail else rest).length ≤
          rest.length := by
        split
        · simp only [List.length_tail]
          omega
        · omega
      split
      · -- the character-class case
        rw [parseRangesF_eq _ _ _ _ _ (by omega)]
        rcases hp : parseRanges (if (failed || s.isEmpty) then Char.ofNat 0
            else s.headD (Char.ofNat 0))
            (if rest.head? = some '^' then rest.tail else rest) false 0 with
          _ | ⟨mtch, chunk2, h2⟩
        · rfl
        · dsimp only [Option.map]
          apply ih
          omega
      · split
        · -- the question-mark case
          split
          · exact ih rest s true (by omega)
          · exact ih rest s.tail _ (by omega)
        · split
          · -- the escape case
            rcases rest with _ | ⟨e, rest2⟩
            · rfl
            · simp only [List.length_cons] at h
              dsimp only
              split
              · exact ih rest2 s true (by omega)
              · exact ih rest2 s.tail _ (by omega)
          · -- the literal case
            split
            · exact ih rest s true (by omega)
            · exact ih rest s.tail _ (by omega)

/-- Clone of `starLoop` that uses the fuelled chunk matcher. -/
def starLoopF (chunk name : GoStr) (restEmpty : Bool) : Option (Option GoStr) :=
  match name with
  | [] => some none
  | c :: tailName =>
    if c = '/' then some none
    else
      match matchChunkF (chunk.length + 1) chunk tailName false with
      | none => none
      | some (t, ok) =>
        if ok then
          if restEmpty ∧ t ≠ [] then starLoopF chunk tailName restEmpty
          else some (some t)
        else starLoopF chunk tailName restEmpty

theorem starLoopF_eq (chunk : GoStr) :
    ∀ (name : GoStr) (restEmpty : Bool),
      starLoopF chunk name restEmpty = starLoop chunk name restEmpty := by
  intro name
  induction name with
  | nil => intro restEmpty; rfl
  | cons c tailName ih =>
    intro restEmpty
    rw [starLoopF, starLoop]
    by_cases hc : c = '/'
    · simp [hc]
    · simp only [if_neg hc]
      rw [matchChunkF_eq _ _ _ _ (by omega)]
      rcases matchChunk chunk tailName false with _ | ⟨t, ok⟩
      · rfl
      · dsimp only
        split
        · split
          · exact ih restEmpty
          · rfl
        · exact ih restEmpty

/-- Fuelled clone of `checkRemaining`. -/
def checkRemainingF : Nat → GoStr → Option Unit
  | 0, _ => none
  | fuel + 1, pattern =>
    if pattern = [] then some ()
    else
      match matchChunkF ((scanChunk pattern).2.1.length + 1)
          (scanChunk pattern).2.1 [] false with
      | none => none
      | some _ => checkRemainingF fuel (scanChunk pattern).2.2

theorem checkRemainingF_eq :
    ∀ (fuel : Nat) (pattern : GoStr), pattern.length < fuel →
      checkRemainingF fuel pattern = checkRemaining pattern := by
  intro fuel
  induction fuel with
  | zero =>
    intro pattern h
    omega
  | succ fuel ih =>
    intro pattern h
    rw [checkRemainingF, checkRemaining]
    by_cases hp : pattern = []
    · simp [hp]
    · simp only [hp, dif_neg, if_neg]
      rw [matchChunkF_eq _ _ _ _ (by omega)]
      rcases matchChunk (scanChunk pattern).2.1 [] false with _ | r
      · rfl
      · simp only
        exact ih (scanChunk pattern).2.2
          (by have := scanChunk_rest_length hp; omega)

/-- Fuelled clone of `goMatch`. -/
def goMatchF : Nat → GoStr → GoStr → Option Bool
  | 0, _, _ => none
  | fuel + 1, pattern, name =>
    if pattern = [] then some name.isEmpty
    else
      if (scanChunk pattern).1 = true ∧ (scanChunk pattern).2.1 = [] then
        some (!(name.contains '/'))
      else
        match matchChunkF ((scanChunk pattern).2.1.length + 1)
            (scanChunk pattern).2.1 name false with
        | none => none
        | some (t, ok) =>
          if ok ∧ (t = [] ∨ (scanChunk pattern).2.2 ≠ []) then
            goMatchF fuel (scanChunk pattern).2.2 t
          else if (scanChunk pattern).1 then
            match starLoopF (scanChunk pattern).2.1 name
                ((scanChunk pattern).2.2 = []) with
            | none => none
            | some (some t2) => goMatchF fuel (scanChunk pattern).2.2 t2
            | some none =>
              match checkRemainingF ((scanChunk pattern).2.2.length + 1)
                  (scanChunk pattern).2.2 with
              | none => none
              | some _ => some false
          else
            match checkRemainingF ((scanChunk pattern).2.2.length + 1)
                (scanChunk pattern).2.2 with
            | none => none
            | some _ => some false

theorem goMatchF_eq :
    ∀ (fuel : Nat) (pattern name : GoStr), pattern.length < fuel →
      goMatchF fuel pattern name = goMatch pattern name := by
  intro fuel
  induction fuel with
  | zero =>
    intro pattern name h
    omega
  | succ fuel ih =>
    intro pattern name h
    rw [goMatchF, goMatch]
    by_cases hp : pattern = []
    · simp [hp]
    · have hrest := scanChunk_rest_length hp
      simp only [if_neg hp, dif_neg hp]
      by_cases hstar : (scanChunk pattern).1 = true ∧ (scanChunk pattern).2.1 = []
      · simp [hstar]
      · simp only [if_neg hstar]
        rw [matchChunkF_eq _ _ _ _ (by omega)]
        rcases matchChunk (scanChunk pattern).2.1 name false with _ | ⟨t, ok⟩
        · rfl
        · dsimp only
          split
          · exact ih (scanChunk pattern).2.2 t (by omega)
          · split
            · rw [starLoopF_eq]
              rcases starLoop (scanChunk pattern).2.1 name
                  ((scanChunk pattern).2.2 = []) with _ | ⟨_ | t2⟩
              · rfl
              · dsimp only
                rw [checkRemainingF_eq _ _ (by omega)]
              · dsimp only
                exact ih (scanChunk pattern).2.2 t2 (by omega)
            · rw [checkRemainingF_eq _ _ (by omega)]

/-- Kernel-computable evaluator for `goMatch`: the fuel is one more than
the pattern length, which the equivalence theorem shows is always
enough. -/
def goMatchEval (pattern name : GoStr) : Option Bool :=
  goMatchF (pattern.length + 1) pattern name

theorem goMatchEval_eq (pattern name : GoStr) :
    goMatchEval pattern name = goMatch pattern name :=
  goMatchF_eq (pattern.length + 1) pattern name (by omega)

/-! ### The namespace package: Pattern, newPattern, ParsePatterns,
Pattern.match and InformerWatcher.shouldIncludeNamespace. -/

/-- Embeds the `Pattern` struct of the namespace package: the original
pattern text plus whether it is treated as a glob. -/
structure Pattern where
  original : GoStr
  isGlob : Bool
deriving DecidableEq

/-- Embeds `strings.ContainsAny(pattern, "*?[]")` as used by `newPattern`. -/
def containsGlobChar (s : GoStr) : Bool :=
  s.any (fun c => c = '*' || c = '?' || c = '[' || c = ']')

/-- Embeds `newPattern` of the namespace package: the empty pattern is
rejected; a pattern containing a glob metacharacter is validated by
running `filepath.Match` against the probe name `"test"`; `none` is the
construction error. -/
def newPattern (pattern : GoStr) : Option Pattern :=
  if pattern = [] then none
  else if containsGlobChar pattern then
    match goMatch pattern "test".toList with
    | none => none
    | some _ => some ⟨pattern, true⟩
  else some ⟨pattern, false⟩

/-- Embeds `Pattern.match` of the namespace package: globs go through
`filepath.Match` (whose error is discarded, yielding `false`), literals
require exact equality. -/
def Pattern.matchGo (p : Pattern) (nsName : GoStr) : Bool :=
  if p.isGlob then (goMatch p.original nsName).getD false
  else p.original == nsName

/-- Embeds `ParsePatterns` of the namespace package: an empty (or nil)
input yields an empty pattern list; otherwise every pattern must compile,
and the first failure aborts the whole construction. -/
def ParsePatterns (patterns : List GoStr) : Option (List Pattern) :=
  if patterns = [] then some []
  else patterns.mapM newPattern

/-- Embeds `InformerWatcher.shouldIncludeNamespace`: a name is in scope
iff the include set is empty or some include pattern matches, and no
exclude pattern matches. -/
def shouldIncludeNamespace (nsName : GoStr)
    (includePatterns excludePatterns : List Pattern) : Bool :=
  let included :=
    if includePatterns.isEmpty then true
    else includePatterns.any (fun p => p.matchGo nsName)
  if !included then false
  else if excludePatterns.any (fun p => p.matchGo nsName) then false
  else true

/-! ### Embedding of k8s.io/apimachinery wait.Backoff / wait.Jitter /
wait.ExponentialBackoff, the retry machinery called by startLogStream.
Durations are rationals in milliseconds.  The jitter drawn by
`rand.Float64()` is supplied as an explicit sequence `js` of rationals in
`[0, 1)`, one per slept delay. -/

/-- Embeds the `wait.Backoff` struct fields used by kat
(`Steps`, `Duration`, `Factor`, `Jitter`; `Cap` is left at its zero
value, as kat does). -/
structure GoBackoff where
  steps : Nat
  duration : ℚ
  factor : ℚ
  jitter : ℚ
  cap : ℚ
deriving DecidableEq

/-- Embeds `wait.Jitter(duration, maxFactor)`: the returned wait is
`duration + rand.Float64()*maxFactor*duration`, i.e. the jitter only ever
lengthens the delay (`j` stands for the random draw in `[0,1)`). -/
def waitJitter (duration maxFactor j : ℚ) : ℚ :=
  duration + j * maxFactor * duration

/-- Embeds `Backoff.Step` in the `Steps >= 1` branch taken inside
`wait.ExponentialBackoff`: decrements `Steps`, multiplies the stored
duration by `Factor` (capping only when `Cap > 0`), and jitters the
returned delay when `Jitter > 0`. -/
def GoBackoff.stepDelay (b : GoBackoff) (j : ℚ) : ℚ × GoBackoff :=
  let duration := b.duration
  let b1 : GoBackoff := { b with steps := b.steps - 1 }
  let b2 : GoBackoff :=
    if b1.factor ≠ 0 then
      let grown := b1.duration * b1.factor
      if b1.cap > 0 ∧ grown > b1.cap then { b1 with duration := b1.cap }
      else { b1 with duration := grown }
    else b1
  (if b.jitter > 0 then waitJitter duration b.jitter j else duration, b2)

/-- Result of one call of the condition function passed to
`wait.ExponentialBackoff`: `(true, nil)`, `(false, nil)` or
`(false, err)` with a non-nil error. -/
inductive CondRes
  | ok
  | fail
  | err
deriving DecidableEq

/-- Outcome of `wait.ExponentialBackoff`: the condition returned true
(nil error), the condition returned a non-nil error (returned
immediately), or the steps were exhausted (`ErrWaitTimeout`). -/
inductive BackoffOutcome
  | success
  | errAbort
  | timeout
deriving DecidableEq

/-- Embeds `wait.ExponentialBackoff(backoff, condition)`.  Returns the
number of condition invocations, the list of slept delays, and the
outcome.  `cond i` is the result of the i-th condition call (0-based) and
`js i` the i-th jitter draw. -/
def exponentialBackoff (b : GoBackoff) (cond : Nat → CondRes) (js : Nat → ℚ)
    (i : Nat) : Nat × List ℚ × BackoffOutcome :=
  if b.steps = 0 then (0, [], .timeout)
  else
    match cond i with
    | .ok => (1, [], .success)
    | .err => (1, [], .errAbort)
    | .fail =>
      if b.steps = 1 then (1, [], .timeout)
      else
        let d := (b.stepDelay (js i)).1
        let r := exponentialBackoff (b.stepDelay (js i)).2 cond js (i + 1)
        (r.1 + 1, d :: r.2.1, r.2.2)
termination_by b.steps
decreasing_by
  simp only [GoBackoff.stepDelay]
  split
  · split
    all_goals simp only []; omega
  · simp only []
    omega

/-- The backoff literal constructed by `startLogStream` in both the kat
package and the legacy kat.go: `Steps: 5, Duration: 100ms, Factor: 2.0,
Jitter: 0.1`. -/
def katBackoff : GoBackoff := ⟨5, 100, 2, 1/10, 0⟩

/-- Embeds the condition closure of the kat package `startLogStream`:
`if err := k.streamPodLogs(...); err != nil { return false, err }` —
a fetch failure is returned as a non-nil error. -/
def katPackageCond (fetchFails : Nat → Bool) (i : Nat) : CondRes :=
  if fetchFails i then .err else .ok

/-- Embeds the condition closure of the legacy kat.go `startLogStream`:
`if err := streamPodLogs(...); err != nil { return false, nil }` —
a fetch failure asks for a retry. -/
def legacyCond (fetchFails : Nat → Bool) (i : Nat) : CondRes :=
  if fetchFails i then .fail else .ok

/-! ### The stream supervisor of the kat package

`Kat.startLogStream`, `Kat.stopLogStream`, the deferred cleanup of the
per-pod goroutine, and `Kat.StopStreaming` are modelled as transitions on
an explicit state.  `activeStreams` is the `sync.Map` from pod name to
cancel function (identified here by the task id whose cancel it is);
`tasks` is the set of per-pod goroutines that have been spawned and have
not yet run their deferred cleanup, together with their cancellation
flag; `openFiles` is the `sync.Map` of open tee files.  Each Go call is
modelled as one atomic transition, which is generous to the code: any
behaviour reachable in this interleaving model is realizable by the
actual goroutines. -/

/-- Runtime record for one spawned per-pod streaming goroutine. -/
structure StreamTask where
  tid : Nat
  nsName : String
  podName : String
  cancelled : Bool
deriving DecidableEq

/-- The supervisor state of one `Kat` instance. -/
structure KatState where
  activeStreams : List (String × Nat)
  tasks : List StreamTask
  openFiles : List String
  nextId : Nat
deriving DecidableEq

/-- The empty supervisor state of a freshly constructed `Kat`. -/
def initState : KatState := ⟨[], [], [], 0⟩

/-- Sets the cancellation flag of the task whose context the stored
cancel function belongs to (the effect of invoking that cancel). -/
def cancelTask (ts : List StreamTask) (tid : Nat) : List StreamTask :=
  ts.map (fun t => if t.tid = tid then { t with cancelled := true } else t)

/-- Embeds `Kat.startLogStream` (kat package, lines 629-657): a no-op if
the pod name is already tracked in `activeStreams`; otherwise stores a
fresh cancel function under the pod name alone and spawns the supervised
goroutine. -/
def startLogStream (s : KatState) (ns pod : String) : KatState :=
  match s.activeStreams.lookup pod with
  | some _ => s
  | none =>
    { s with
      activeStreams := (pod, s.nextId) :: s.activeStreams,
      tasks := s.tasks ++ [⟨s.nextId, ns, pod, false⟩],
      nextId := s.nextId + 1 }

/-- Embeds `Kat.stopLogStream` (kat package, lines 758-763): if the pod
name is tracked, invokes the stored cancel and deletes the entry; no-op
otherwise. -/
def stopLogStream (s : KatState) (pod : String) : KatState :=
  match s.activeStreams.lookup pod with
  | some tid =>
    { s with
      tasks := cancelTask s.tasks tid,
      activeStreams := s.activeStreams.filter (fun e => !(e.1 == pod)) }
  | none => s

/-- Embeds the deferred cleanup of the goroutine spawned by
`startLogStream`: when the goroutine finishes (its backoff loop
returned), it runs `cancel()` and `k.activeStreams.Delete(podName)` —
the delete is keyed by the pod NAME, whatever entry that key currently
holds. -/
def taskExit (s : KatState) (tid : Nat) : KatState :=
  match s.tasks.find? (fun t => t.tid == tid) with
  | none => s
  | some t =>
    { s with
      tasks := s.tasks.filter (fun u => !(u.tid == tid)),
      activeStreams := s.activeStreams.filter (fun e => !(e.1 == t.podName)) }

/-- Embeds `Kat.StopStreaming` (kat package, lines 540-578): ranges over
`activeStreams` invoking every stored cancel and deleting every entry,
then ranges over `openFiles` syncing and closing every file and deleting
every entry, and returns.  Nothing waits for the task goroutines. -/
def stopStreaming (s : KatState) : KatState :=
  { s with
    tasks := s.activeStreams.foldl (fun ts e => cancelTask ts e.2) s.tasks,
    activeStreams := [],
    openFiles := [] }

/-- The supervisor calls as a transition alphabet, so whole reachable
histories can be stated. -/
inductive KatOp
  | start (ns pod : String)
  | stop (pod : String)
  | exitTask (tid : Nat)
  | stopAll
deriving DecidableEq

/-- One atomic supervisor call. -/
def stepOp (s : KatState) : KatOp → KatState
  | .start ns pod => startLogStream s ns pod
  | .stop pod => stopLogStream s pod
  | .exitTask tid => taskExit s tid
  | .stopAll => stopStreaming s

/-- Runs a history of supervisor calls from a state. -/
def runOps (s : KatState) (ops : List KatOp) : KatState :=
  ops.foldl stepOp s

/-- The tasks currently streaming pod `pod`: spawned, not yet exited, and
whose context has not been cancelled. -/
def activeTasksFor (s : KatState) (pod : String) : List StreamTask :=
  s.tasks.filter (fun t => t.podName == pod && !t.cancelled)

/-! ### The output sink of the kat package

The body of the per-container goroutine inside `Kat.streamPodLogs`
(kat package, lines 670-750), after the log stream has been opened, is
modelled as a pure function from the list of lines the scanner yields to
the sequence of observable effects (callback invocations and file
writes).  A small oracle stands for the filesystem: whether `MkdirAll`
and `os.Create` succeed, and whether each `WriteString` succeeds — the
code discards the result of `WriteString`, so the oracle lets the
theorems speak about failed writes. -/

/-- Embeds the `OutputConfig` struct of the kat package. -/
structure OutputConfig where
  teeDir : String
  silent : Bool
deriving DecidableEq

/-- Filesystem oracle for one container goroutine. -/
structure SinkFS where
  mkdirOk : Bool
  createOk : Bool
  writeOk : Nat → Bool

/-- Observable effects of one container goroutine, in order: callback
invocations (`OnStreamStart`, `OnError` for MkdirAll/Create failures,
`OnFileCreated`, `OnLogLine`, `OnFileClosed`, `OnStreamStop`) and file
writes with the exact payload handed to `WriteString` together with the
oracle verdict for that write. -/
inductive SinkEv
  | streamStart (ns pod ctr : String)
  | errorMkdir (path : String)
  | errorCreate (path : String)
  | fileCreated (path : String)
  | logLine (ns pod ctr line : String)
  | wrote (path payload : String) (ok : Bool)
  | fileClosed (path : String)
  | streamStop (ns pod ctr : String)
deriving DecidableEq

/-- Embeds `filepath.Join(k.outputConfig.TeeDir, namespace, podName,
containerName+".txt")` for clean, non-empty path components. -/
def teePath (cfg : OutputConfig) (ns pod ctr : String) : String :=
  String.intercalate "/" [cfg.teeDir, ns, pod, ctr ++ ".txt"]

/-- The scanner loop of the container goroutine: processes each line,
lazily creating the tee file on the first line when `TeeDir` is set.
Returns the emitted events and `some fileOpen` on normal loop exit, or
`none` when a MkdirAll/Create failure made the goroutine return early. -/
def scanLoop (cfg : OutputConfig) (fs : SinkFS) (ns pod ctr : String)
    (lines : List String) (fileOpen : Bool) (wn : Nat) :
    List SinkEv × Option Bool :=
  match lines with
  | [] => ([], some fileOpen)
  | line :: restLines =>
    if !fileOpen ∧ cfg.teeDir ≠ "" then
      if !fs.mkdirOk then ([.errorMkdir (teePath cfg ns pod ctr)], none)
      else if !fs.createOk then ([.errorCreate (teePath cfg ns pod ctr)], none)
      else
        let path := teePath cfg ns pod ctr
        let evs : List SinkEv :=
          [.fileCreated path, .logLine ns pod ctr line,
            .wrote path (line ++ "\n") (fs.writeOk wn)]
        let r := scanLoop cfg fs ns pod ctr restLines true (wn + 1)
        (evs ++ r.1, r.2)
    else
      let evs : List SinkEv :=
        [SinkEv.logLine ns pod ctr line] ++
          (if fileOpen then
            [SinkEv.wrote (teePath cfg ns pod ctr) (line ++ "\n") (fs.writeOk wn)]
          else [])
      let r := scanLoop cfg fs ns pod ctr restLines fileOpen
        (if fileOpen then wn + 1 else wn)
      (evs ++ r.1, r.2)

/-- Embeds the whole container goroutine body (kat package, lines
670-750) given that the log stream opened successfully: `OnStreamStart`,
the scanner loop, then — only when the loop was not abandoned by an
early return — closing the file if one was opened and `OnStreamStop`. -/
def streamContainer (cfg : OutputConfig) (fs : SinkFS) (ns pod ctr : String)
    (lines : List String) : List SinkEv :=
  SinkEv.streamStart ns pod ctr ::
    (match scanLoop cfg fs ns pod ctr lines false 0 with
     | (evs, none) => evs
     | (evs, some fileOpen) =>
       evs ++
         (if fileOpen then [SinkEv.fileClosed (teePath cfg ns pod ctr)] else []) ++
         [SinkEv.streamStop ns pod ctr])

/-- The `OnFileCreated` paths among a list of sink events. -/
def createdPaths (evs : List SinkEv) : List String :=
  evs.filterMap (fun e => match e with | .fileCreated p => some p | _ => none)

/-- The payloads handed to `WriteString`, in order. -/
def writePayloads (evs : List SinkEv) : List String :=
  evs.filterMap (fun e => match e with | .wrote _ payload _ => some payload | _ => none)

/-- The `OnLogLine` lines among a list of sink events. -/
def consoleLines (evs : List SinkEv) : List String :=
  evs.filterMap (fun e => match e with | .logLine _ _ _ l => some l | _ => none)

/-- The `OnError` reports among a list of sink events (the container
goroutine only ever reports MkdirAll and Create failures). -/
def errorReports (evs : List SinkEv) : List SinkEv :=
  evs.filter (fun e => match e with
    | .errorMkdir _ => true
    | .errorCreate _ => true
    | _ => false)

/-- The failed `WriteString` calls among a list of sink events. -/
def failedWrites (evs : List SinkEv) : List SinkEv :=
  evs.filter (fun e => match e with | .wrote _ _ ok => !ok | _ => false)

/-- Embeds the fan-out of `Kat.streamPodLogs` over the containers of a
pod: one independent goroutine per container, each with its own lines
and filesystem oracle. -/
def streamPod (cfg : OutputConfig) (ns pod : String)
    (containers : List (String × List String × SinkFS)) : List (List SinkEv) :=
  containers.map (fun c => streamContainer cfg c.2.2 ns pod c.1 c.2.1)

/-! ### Supervisor lemmas -/

theorem lookup_filter_out (m : List (String × Nat)) (k : String) :
    (m.filter (fun e => !(e.1 == k))).lookup k = none := by
  induction m with
  | nil => rfl
  | cons e rest ih =>
    by_cases he : e.1 = k
    · simp [List.filter_cons, he, ih]
    · have h2 : (k == e.1) = false := beq_false_of_ne (fun hq => he hq.symm)
      simp [List.filter_cons, beq_false_of_ne he, List.lookup, h2, ih]

theorem cancelTask_length (ts : List StreamTask) (tid : Nat) :
    (cancelTask ts tid).length = ts.length := by
  simp [cancelTask]

theorem foldl_cancel_length (l : List (String × Nat)) (ts : List StreamTask) :
    (l.foldl (fun ts e => cancelTask ts e.2) ts).length = ts.length := by
  induction l generalizing ts with
  | nil => rfl
  | cons e rest ih => simp [List.foldl, ih, cancelTask_length]

theorem cancelTask_sets (ts : List StreamTask) (tid : Nat) :
    ∀ t ∈ cancelTask ts tid, t.tid = tid → t.cancelled = true := by
  intro t ht htid
  simp only [cancelTask, List.mem_map] at ht
  obtain ⟨u, hu, hmap⟩ := ht
  by_cases h : u.tid = tid
  · simp [h] at hmap
    rw [← hmap]
  · simp [h] at hmap
    rw [← hmap] at htid
    exact absurd htid h

theorem cancelTask_keeps (ts : List StreamTask) (tid tid2 : Nat)
    (h : ∀ t ∈ ts, t.tid = tid → t.cancelled = true) :
    ∀ t ∈ cancelTask ts tid2, t.tid = tid → t.cancelled = true := by
  intro t ht htid
  simp only [cancelTask, List.mem_map] at ht
  obtain ⟨u, hu, hmap⟩ := ht
  by_cases hc : u.tid = tid2
  · simp [hc] at hmap
    rw [← hmap]
  · simp [hc] at hmap
    rw [← hmap] at htid ⊢
    exact h u hu htid

theorem foldl_cancel_keeps (l : List (String × Nat)) (ts : List StreamTask)
    (tid : Nat) (h : ∀ t ∈ ts, t.tid = tid → t.cancelled = true) :
    ∀ t ∈ l.foldl (fun ts e => cancelTask ts e.2) ts, t.tid = tid →
      t.cancelled = true := by
  induction l generalizing ts with
  | nil => exact h
  | cons e rest ih =>
    simp only [List.foldl]
    exact ih (cancelTask ts e.2) (cancelTask_keeps ts tid e.2 h)

theorem foldl_cancel_sets (l : List (String × Nat)) (ts : List StreamTask)
    (tid : Nat) (pod : String) (h : (pod, tid) ∈ l) :
    ∀ t ∈ l.foldl (fun ts e => cancelTask ts e.2) ts, t.tid = tid →
      t.cancelled = true := by
  induction l generalizing ts with
  | nil => simp at h
  | cons e rest ih =>
    rcases List.mem_cons.mp h with he | hrest
    · simp only [List.foldl, ← he]
      exact foldl_cancel_keeps rest (cancelTask ts tid) tid
        (cancelTask_sets ts tid)
    · simp only [List.foldl]
      exact ih (cancelTask ts e.2) hrest

/-! ### Claim theorems: supervisor and retry -/

/-- C1 counterexample: the at-most-one-task invariant fails.  From the
empty state, the call history start(p), stop(p), start(p), then the first
goroutine running its deferred cleanup (which deletes the map entry of
the SECOND task, because the delete is keyed by pod name), then start(p)
again, leaves two distinct spawned, uncancelled, unfinished tasks
streaming pod p concurrently. -/
theorem at_most_one_task_cex :
    (activeTasksFor (runOps initState
      [.start "ns" "p", .stop "p", .start "ns" "p", .exitTask 0, .start "ns" "p"])
      "p").length = 2 := by
  decide

/-- C1 amended: calling start for an identity that is already tracked is
a no-op, and two consecutive starts for the same identity from a state
with no task for it yield exactly one active task; the stronger
claim that two tasks are never concurrently active for one identity
fails (see the counterexample). -/
theorem at_most_one_task_amended :
    (∀ (s : KatState) (ns pod : String) (tid : Nat),
      s.activeStreams.lookup pod = some tid → startLogStream s ns pod = s)
    ∧ (∀ (s : KatState) (ns ns2 pod : String),
        s.activeStreams.lookup pod = none → activeTasksFor s pod = [] →
        (activeTasksFor (startLogStream (startLogStream s ns pod) ns2 pod)
          pod).length = 1) := by
  constructor
  · intro s ns pod tid h
    simp [startLogStream, h]
  · intro s ns ns2 pod hlk hact
    simp only [startLogStream, hlk]
    have h2 : (((pod, s.nextId) :: s.activeStreams).lookup pod) = some s.nextId := by
      simp [List.lookup]
    simp only [h2]
    simp only [activeTasksFor] at hact ⊢
    simp [List.filter_append, hact]

/-- C1 witness for the amended theorem, at the empty state. -/
theorem at_most_one_task_amended_witness :
    (activeTasksFor (startLogStream (startLogStream initState "a" "p") "b" "p")
      "p").length = 1 :=
  at_most_one_task_amended.2 initState "a" "b" "p" (by decide) (by decide)

/-- C10: streams are keyed by pod name alone, not by the full
(namespace, pod, container) identity: a second start for the same pod
name is a no-op whatever namespace it comes from, and stopLogStream is
keyed by pod name only, cancelling the tracked stream regardless of the
namespace of the task holding it.  Concretely, starting pod p from ns1
and then from ns2 tracks a single task belonging to ns1, and stop(p)
cancels that ns1 task. -/
theorem streams_keyed_by_pod_name :
    (∀ (s : KatState) (ns1 ns2 pod : String),
      startLogStream (startLogStream s ns1 pod) ns2 pod =
        startLogStream s ns1 pod)
    ∧ (∀ (s : KatState) (pod : String) (tid : Nat),
        s.activeStreams.lookup pod = some tid →
        (stopLogStream s pod).activeStreams.lookup pod = none ∧
        (stopLogStream s pod).tasks = cancelTask s.tasks tid)
    ∧ (runOps initState [.start "ns1" "p", .start "ns2" "p"]).tasks =
        [⟨0, "ns1", "p", false⟩]
    ∧ (runOps initState [.start "ns1" "p", .start "ns2" "p", .stop "p"]).tasks =
        [⟨0, "ns1", "p", true⟩] := by
  refine ⟨?_, ?_, by decide, by decide⟩
  · intro s ns1 ns2 pod
    rcases h : s.activeStreams.lookup pod with _ | tid
    · simp only [startLogStream, h]
      simp [List.lookup]
    · simp [startLogStream, h]
  · intro s pod tid h
    constructor
    · simp only [stopLogStream, h]
      exact lookup_filter_out s.activeStreams pod
    · simp [stopLogStream, h]

/-- C10 witness: the quantified parts applied at a concrete state. -/
theorem streams_keyed_by_pod_name_witness :
    (stopLogStream (startLogStream initState "ns1" "p") "p").tasks =
      cancelTask (startLogStream initState "ns1" "p").tasks 0 :=
  (streams_keyed_by_pod_name.2.1 (startLogStream initState "ns1" "p") "p" 0
    (by decide)).2

/-- C5 counterexample: StopStreaming does not wait for tasks to finish.
From the empty state, start pod p and call StopStreaming: the call
returns with the goroutine of task 0 cancelled but still in the live set
(its deferred resource release has not run), so a task has outlived the
call. -/
theorem stopstreaming_no_wait_cex :
    (stopStreaming (runOps initState [.start "ns" "p"])).tasks =
      [⟨0, "ns", "p", true⟩]
    ∧ taskExit (stopStreaming (runOps initState [.start "ns" "p"])) 0 ≠
        stopStreaming (runOps initState [.start "ns" "p"]) := by
  constructor
  · decide
  · decide

/-- C5 amended: StopStreaming cancels every tracked task, empties the
tracked map, and itself syncs and closes every open file before
returning; it does not wait for the task goroutines to finish, so the
set of live (spawned, not yet exited) tasks is unchanged when it
returns. -/
theorem stopstreaming_amended (s : KatState) :
    (stopStreaming s).activeStreams = []
    ∧ (stopStreaming s).openFiles = []
    ∧ (stopStreaming s).tasks.length = s.tasks.length
    ∧ (∀ (pod : String) (tid : Nat), (pod, tid) ∈ s.activeStreams →
        ∀ t ∈ (stopStreaming s).tasks, t.tid = tid → t.cancelled = true) := by
  refine ⟨rfl, rfl, foldl_cancel_length s.activeStreams s.tasks, ?_⟩
  intro pod tid hmem t ht htid
  exact foldl_cancel_sets s.activeStreams s.tasks tid pod hmem t ht htid

/-- C5 witness: the amended theorem applied at a concrete state with one
tracked task. -/
theorem stopstreaming_amended_witness :
    ∀ t ∈ (stopStreaming (startLogStream initState "ns" "p")).tasks,
      t.tid = 0 → t.cancelled = true :=
  (stopstreaming_amended (startLogStream initState "ns" "p")).2.2.2 "p" 0
    (by decide)

/-- C6 counterexample: a clean end-of-stream does not trigger a retry.
When the first fetch succeeds and its feed then ends cleanly
(`streamPodLogs` returns nil), the condition returns `(true, nil)`, so
`wait.ExponentialBackoff` returns success after exactly one attempt with
no retry, and the goroutine then runs its deferred cleanup, removing the
task and its tracking entry: the task terminates instead of retrying. -/
theorem clean_eof_cex :
    exponentialBackoff katBackoff (katPackageCond (fun _ => false)) (fun _ => 0) 0 =
      (1, [], .success)
    ∧ (taskExit (startLogStream initState "ns" "p") 0).tasks = []
    ∧ (taskExit (startLogStream initState "ns" "p") 0).activeStreams = [] := by
  refine ⟨?_, by decide, by decide⟩
  rw [exponentialBackoff]
  simp [katBackoff, katPackageCond]

/-- C6 amended: a clean end-of-stream is treated as successful
completion of the supervised execution, not as feed closure: the backoff
loop stops after that single successful attempt and the task goroutine
terminates, deleting the identity from the tracked map. -/
theorem clean_eof_amended :
    (∀ (ff : Nat → Bool) (js : Nat → ℚ), ff 0 = false →
      exponentialBackoff katBackoff (katPackageCond ff) js 0 = (1, [], .success))
    ∧ (∀ (s : KatState) (tid : Nat) (t : StreamTask),
        s.tasks.find? (fun u => u.tid == tid) = some t →
        (taskExit s tid).activeStreams.lookup t.podName = none ∧
          ∀ u ∈ (taskExit s tid).tasks, u.tid ≠ tid) := by
  constructor
  · intro ff js hff
    rw [exponentialBackoff]
    simp [katBackoff, katPackageCond, hff]
  · intro s tid t hfind
    simp only [taskExit, hfind]
    constructor
    · exact lookup_filter_out s.activeStreams t.podName
    · intro u hu
      simp only [List.mem_filter] at hu
      intro he
      have := hu.2
      simp [he] at this

/-- C6 witness: the amended theorem at a concrete always-clean fetch and
one-task state. -/
theorem clean_eof_amended_witness :
    exponentialBackoff katBackoff (katPackageCond (fun _ => false))
      (fun _ => 1/2) 0 = (1, [], .success) :=
  clean_eof_amended.1 (fun _ => false) (fun _ => 1/2) rfl

/-- C2 counterexample: in the kat package, a task whose fetch always
fails performs exactly one attempt, not five: the condition closure
returns the fetch error as a non-nil error, which makes
`wait.ExponentialBackoff` return immediately. -/
theorem retry_bound_cex :
    (exponentialBackoff katBackoff (katPackageCond (fun _ => true))
      (fun _ => 0) 0).1 = 1 := by
  rw [exponentialBackoff]
  simp [katBackoff, katPackageCond]

/-- C2 amended: with the backoff literal Steps 5 / Duration 100ms /
Factor 2.0 / Jitter 0.1, a task whose fetch always fails performs
exactly one attempt in the kat package (its condition returns the error,
aborting the backoff), while in the legacy kat.go variant (whose
condition returns `(false, nil)`) it performs exactly five attempts with
four slept delays of 100, 200, 400 and 800 ms, each lengthened by the
additive jitter of zero to ten percent (never shortened), so the delays
are non-decreasing; in both variants the goroutine then exits and its
deferred cleanup removes the identity from the tracked map, the failure
being reported but never fatal. -/
theorem retry_bound_amended :
    (∀ (ff : Nat → Bool) (js : Nat → ℚ), (∀ i, ff i = true) →
      exponentialBackoff katBackoff (katPackageCond ff) js 0 =
        (1, [], .errAbort))
    ∧ (∀ (ff : Nat → Bool) (js : Nat → ℚ), (∀ i, ff i = true) →
        (∀ i, 0 ≤ js i ∧ js i < 1) →
        exponentialBackoff katBackoff (legacyCond ff) js 0 =
          (5, [waitJitter 100 (1/10) (js 0), waitJitter 200 (1/10) (js 1),
            waitJitter 400 (1/10) (js 2), waitJitter 800 (1/10) (js 3)],
            .timeout)
        ∧ List.Chain' (· ≤ ·)
            [waitJitter 100 (1/10) (js 0), waitJitter 200 (1/10) (js 1),
              waitJitter 400 (1/10) (js 2), waitJitter 800 (1/10) (js 3)])
    ∧ (∀ (s : KatState) (tid : Nat) (t : StreamTask),
        s.tasks.find? (fun u => u.tid == tid) = some t →
        (taskExit s tid).activeStreams.lookup t.podName = none) := by
  refine ⟨?_, ?_, ?_⟩
  · intro ff js hff
    rw [exponentialBackoff]
    simp [katBackoff, katPackageCond, hff 0]
  · intro ff js hff hjs
    constructor
    · rw [exponentialBackoff]
      norm_num [katBackoff, legacyCond, hff 0, GoBackoff.stepDelay]
      rw [exponentialBackoff]
      norm_num [legacyCond, hff 1, GoBackoff.stepDelay]
      rw [exponentialBackoff]
      norm_num [legacyCond, hff 2, GoBackoff.stepDelay]
      rw [exponentialBackoff]
      norm_num [legacyCond, hff 3, GoBackoff.stepDelay]
      rw [exponentialBackoff]
      norm_num [legacyCond, hff 4, GoBackoff.stepDelay]
    · obtain ⟨h0a, h0b⟩ := hjs 0
      obtain ⟨h1a, h1b⟩ := hjs 1
      obtain ⟨h2a, h2b⟩ := hjs 2
      obtain ⟨h3a, h3b⟩ := hjs 3
      simp only [List.chain'_cons, List.chain'_singleton, and_true]
      refine ⟨?_, ?_, ?_⟩ <;> (simp only [waitJitter]; nlinarith)
  · intro s tid t hfind
    simp only [taskExit, hfind]
    exact lookup_filter_out s.activeStreams t.podName

/-- C2 witness: the amended theorem at the always-failing fetch with
zero jitter draws. -/
theorem retry_bound_amended_witness :
    exponentialBackoff katBackoff (katPackageCond (fun _ => true))
      (fun _ => 0) 0 = (1, [], .errAbort)
    ∧ exponentialBackoff katBackoff (legacyCond (fun _ => true))
        (fun _ => 0) 0 =
      (5, [waitJitter 100 (1/10) 0, waitJitter 200 (1/10) 0,
        waitJitter 400 (1/10) 0, waitJitter 800 (1/10) 0], .timeout) :=
  ⟨retry_bound_amended.1 (fun _ => true) (fun _ => 0) (fun _ => rfl),
    (retry_bound_amended.2.1 (fun _ => true) (fun _ => 0) (fun _ => rfl)
      (fun _ => by norm_num)).1⟩

/-! ### Sink lemmas -/

theorem scanLoop_open_spec (cfg : OutputConfig) (fs : SinkFS)
    (ns pod ctr : String) :
    ∀ (lines : List String) (wn : Nat),
      createdPaths (scanLoop cfg fs ns pod ctr lines true wn).1 = []
      ∧ writePayloads (scanLoop cfg fs ns pod ctr lines true wn).1 =
          lines.map (fun l => l ++ "\n")
      ∧ errorReports (scanLoop cfg fs ns pod ctr lines true wn).1 = []
      ∧ (scanLoop cfg fs ns pod ctr lines true wn).2 = some true := by
  intro lines
  induction lines with
  | nil =>
    intro wn
    simp [scanLoop, createdPaths, writePayloads, errorReports]
  | cons l rest ih =>
    intro wn
    rw [scanLoop]
    simp only [Bool.not_true, Bool.false_eq_true, false_and, if_false,
      ite_true, if_true]
    obtain ⟨ih1, ih2, ih3, ih4⟩ := ih (wn + 1)
    simp [createdPaths, writePayloads, errorReports, List.filterMap_append,
      List.filter_append] at ih1 ih2 ih3 ⊢
    exact ⟨ih1, ih2, ih3, ih4⟩

theorem errorReports_append (a b : List SinkEv) :
    errorReports (a ++ b) = errorReports a ++ errorReports b := by
  simp [errorReports]

theorem errorReports_cons_start (ns pod ctr : String) (l : List SinkEv) :
    errorReports (SinkEv.streamStart ns pod ctr :: l) = errorReports l := by
  simp [errorReports]

theorem scanLoop_ok_noerr (cfg : OutputConfig) (fs : SinkFS)
    (ns pod ctr : String) (hmk : fs.mkdirOk = true)
    (hcr : fs.createOk = true) :
    ∀ (lines : List String) (fileOpen : Bool) (wn : Nat),
      errorReports (scanLoop cfg fs ns pod ctr lines fileOpen wn).1 = [] := by
  intro lines
  induction lines with
  | nil =>
    intro fileOpen wn
    simp [scanLoop, errorReports]
  | cons l rest ih =>
    intro fileOpen wn
    rw [scanLoop]
    split
    · simp only [hmk, hcr, Bool.not_true, Bool.false_eq_true, if_false]
      rw [errorReports_append, ih true]
      rfl
    · simp only []
      rw [errorReports_append, ih fileOpen]
      rcases fileOpen with _ | _ <;> rfl

/-! ### Claim theorems: output sink -/

/-- C3: lazy file creation in the kat package.  With tee enabled and a
healthy filesystem: zero lines produce no file-creation at all; the
first line creates exactly one file, at the path
teeDir/namespace/pod/container.txt, before that first line is fanned
out; and every line is written as the raw line plus a trailing
newline. -/
theorem lazy_file_creation (cfg : OutputConfig) (fs : SinkFS)
    (ns pod ctr : String) (lines : List String)
    (htee : cfg.teeDir ≠ "") (hmk : fs.mkdirOk = true)
    (hcr : fs.createOk = true) :
    createdPaths (streamContainer cfg fs ns pod ctr []) = []
    ∧ (lines ≠ [] →
        createdPaths (streamContainer cfg fs ns pod ctr lines) =
          [teePath cfg ns pod ctr])
    ∧ writePayloads (streamContainer cfg fs ns pod ctr lines) =
        lines.map (fun l => l ++ "\n")
    ∧ (∀ (l : String) (rest : List String), lines = l :: rest →
        ∃ evs, streamContainer cfg fs ns pod ctr lines =
          SinkEv.streamStart ns pod ctr ::
            SinkEv.fileCreated (teePath cfg ns pod ctr) ::
            SinkEv.logLine ns pod ctr l :: evs) := by
  refine ⟨?_, ?_, ?_, ?_⟩
  · simp [streamContainer, scanLoop, createdPaths]
  · intro hne
    match lines with
    | [] => exact absurd rfl hne
    | l :: rest =>
      simp only [streamContainer]
      rw [scanLoop]
      simp only [Bool.not_false, htee, ne_eq, not_false_iff, and_true,
        if_true, hmk, hcr, Bool.not_true, Bool.false_eq_true, if_false]
      obtain ⟨h1, h2, h3, h4⟩ := scanLoop_open_spec cfg fs ns pod ctr rest 1
      rcases hs : scanLoop cfg fs ns pod ctr rest true 1 with ⟨evs, fo⟩
      rw [hs] at h1 h4
      simp only at h1 h4
      subst h4
      simp [createdPaths, List.filterMap_append] at h1 ⊢
      exact h1
  · match lines with
    | [] => simp [streamContainer, scanLoop, writePayloads]
    | l :: rest =>
      simp only [streamContainer]
      rw [scanLoop]
      simp only [Bool.not_false, htee, ne_eq, not_false_iff, and_true,
        if_true, hmk, hcr, Bool.not_true, Bool.false_eq_true, if_false]
      obtain ⟨h1, h2, h3, h4⟩ := scanLoop_open_spec cfg fs ns pod ctr rest 1
      rcases hs : scanLoop cfg fs ns pod ctr rest true 1 with ⟨evs, fo⟩
      rw [hs] at h2 h4
      simp only at h2 h4
      subst h4
      simp [writePayloads, List.filterMap_append] at h2 ⊢
      exact h2
  · intro l rest hl
    subst hl
    simp only [streamContainer]
    rw [scanLoop]
    simp only [Bool.not_false, htee, ne_eq, not_false_iff, and_true,
      if_true, hmk, hcr, Bool.not_true, Bool.false_eq_true, if_false]
    rcases hs : scanLoop cfg fs ns pod ctr rest true 1 with ⟨evs, fo⟩
    rcases fo with _ | fo <;> exact ⟨_, rfl⟩

/-- C3 witness: the lazy-creation theorem at a concrete configuration
with two lines. -/
theorem lazy_file_creation_witness :
    writePayloads (streamContainer ⟨"logs", false⟩ ⟨true, true, fun _ => true⟩
      "ns" "pod" "ctr" ["a", "b"]) = ["a" ++ "\n", "b" ++ "\n"] :=
  (lazy_file_creation ⟨"logs", false⟩ ⟨true, true, fun _ => true⟩
    "ns" "pod" "ctr" ["a", "b"] (by decide) rfl rfl).2.2.1

/-- C9 counterexample: a failing write in the tee sink is not reported
through any callback.  With tee enabled, a healthy create and a failing
WriteString, the goroutine emits no error report at all even though a
write failed (the code discards the WriteString result, marked with a
TODO). -/
theorem sink_write_failure_cex :
    errorReports (streamContainer ⟨"logs", false⟩ ⟨true, true, fun _ => false⟩
      "ns" "pod" "ctr" ["a"]) = []
    ∧ failedWrites (streamContainer ⟨"logs", false⟩ ⟨true, true, fun _ => false⟩
        "ns" "pod" "ctr" ["a"]) =
      [SinkEv.wrote "logs/ns/pod/ctr.txt" ("a" ++ "\n") false] := by
  constructor
  · rfl
  · rfl

/-- C9 amended: MkdirAll and Create failures of the tee sink are
reported via onError, but they also terminate that container goroutine
early, cutting off the identity's own console fan-out; WriteString
failures are never reported (and close failures inside the goroutine are
likewise discarded); other identities are unaffected because every
container is streamed by an independent goroutine that is a function of
its own lines and its own filesystem. -/
theorem sink_reporting_amended :
    (∀ (cfg : OutputConfig) (fs : SinkFS) (ns pod ctr l : String)
        (rest : List String), cfg.teeDir ≠ "" → fs.mkdirOk = false →
      streamContainer cfg fs ns pod ctr (l :: rest) =
        [SinkEv.streamStart ns pod ctr,
          SinkEv.errorMkdir (teePath cfg ns pod ctr)])
    ∧ (∀ (cfg : OutputConfig) (fs : SinkFS) (ns pod ctr l : String)
        (rest : List String), cfg.teeDir ≠ "" → fs.mkdirOk = true →
        fs.createOk = false →
      streamContainer cfg fs ns pod ctr (l :: rest) =
        [SinkEv.streamStart ns pod ctr,
          SinkEv.errorCreate (teePath cfg ns pod ctr)])
    ∧ (∀ (cfg : OutputConfig) (fs : SinkFS) (ns pod ctr : String)
        (lines : List String), fs.mkdirOk = true → fs.createOk = true →
      errorReports (streamContainer cfg fs ns pod ctr lines) = [])
    ∧ (∀ (cfg : OutputConfig) (ns pod : String)
        (containers : List (String × List String × SinkFS)),
      streamPod cfg ns pod containers =
        containers.map (fun c => streamContainer cfg c.2.2 ns pod c.1 c.2.1)) := by
  refine ⟨?_, ?_, ?_, fun _ _ _ _ => rfl⟩
  · intro cfg fs ns pod ctr l rest htee hmk
    simp only [streamContainer]
    rw [scanLoop]
    simp [htee, hmk]
  · intro cfg fs ns pod ctr l rest htee hmk hcr
    simp only [streamContainer]
    rw [scanLoop]
    simp [htee, hmk, hcr]
  · intro cfg fs ns pod ctr lines hmk hcr
    simp only [streamContainer]
    have h := scanLoop_ok_noerr cfg fs ns pod ctr hmk hcr lines false 0
    rcases hs : scanLoop cfg fs ns pod ctr lines false 0 with ⟨evs, fo⟩
    rw [hs] at h
    simp only at h
    rw [errorReports_cons_start]
    rcases fo with _ | fo
    · exact h
    · simp only []
      rw [errorReports_append, errorReports_append, h]
      rcases fo with _ | _ <;> rfl

/-- C9 witness: the amended theorem at concrete failing and healthy
sinks. -/
theorem sink_reporting_amended_witness :
    streamContainer ⟨"logs", false⟩ ⟨false, true, fun _ => true⟩
      "ns" "pod" "ctr" ["a"] =
      [SinkEv.streamStart "ns" "pod" "ctr",
        SinkEv.errorMkdir "logs/ns/pod/ctr.txt"] :=
  sink_reporting_amended.1 ⟨"logs", false⟩ ⟨false, true, fun _ => true⟩
    "ns" "pod" "ctr" "a" [] (by decide) rfl

/-! ### Selector lemmas and the scenario A data -/

theorem shouldInclude_eq (nsName : GoStr) (inc exc : List Pattern) :
    shouldIncludeNamespace nsName inc exc =
      ((inc.isEmpty || inc.any (fun p => p.matchGo nsName)) &&
        !(exc.any (fun p => p.matchGo nsName))) := by
  simp only [shouldIncludeNamespace]
  rcases hinc : inc.isEmpty with _ | _ <;>
    rcases hexc : exc.any (fun p => p.matchGo nsName) with _ | _ <;>
      rcases hany : inc.any (fun p => p.matchGo nsName) with _ | _ <;>
        simp [hinc, hexc, hany]

/-- The include patterns of spec scenario A, as `ParsePatterns` builds
them. -/
def scenarioAInc : List Pattern :=
  [⟨"frontend-*".toList, true⟩, ⟨"backend-*".toList, true⟩,
    ⟨"bpfman".toList, false⟩]

/-- The exclude patterns of spec scenario A. -/
def scenarioAExc : List Pattern := [⟨"*-dev".toList, true⟩]

/-- The candidate names of spec scenario A. -/
def scenarioANames : List GoStr :=
  ["frontend-prod".toList, "frontend-dev".toList, "backend-prod".toList,
    "backend-dev".toList, "bpfman".toList, "other-service".toList,
    "kube-system".toList]

/-- Kernel-computable form of `Pattern.matchGo` (through `goMatchEval`). -/
def matchEval (p : Pattern) (n : GoStr) : Bool :=
  if p.isGlob then (goMatchEval p.original n).getD false else p.original == n

theorem matchEval_eq (p : Pattern) (n : GoStr) :
    matchEval p n = p.matchGo n := by
  rw [matchEval, Pattern.matchGo, goMatchEval_eq]

/-- Kernel-computable form of `newPattern` (through `goMatchEval`). -/
def newPatternEval (s : GoStr) : Option Pattern :=
  if s = [] then none
  else if containsGlobChar s then
    match goMatchEval s "test".toList with
    | none => none
    | some _ => some ⟨s, true⟩
  else some ⟨s, false⟩

theorem newPatternEval_eq (s : GoStr) : newPatternEval s = newPattern s := by
  rw [newPatternEval, newPattern, goMatchEval_eq]

theorem ParsePatterns_eval (ss : List GoStr) :
    ParsePatterns ss =
      (if ss = [] then some [] else ss.mapM newPatternEval) := by
  rw [ParsePatterns]
  have hf : newPatternEval = newPattern := funext newPatternEval_eq
  rw [hf]

/-- Kernel-computable form of `shouldIncludeNamespace`. -/
def shouldIncludeEval (nsName : GoStr)
    (includePatterns excludePatterns : List Pattern) : Bool :=
  let included :=
    if includePatterns.isEmpty then true
    else includePatterns.any (fun p => matchEval p nsName)
  if !included then false
  else if excludePatterns.any (fun p => matchEval p nsName) then false
  else true

theorem shouldIncludeEval_eq (nsName : GoStr) (inc exc : List Pattern) :
    shouldIncludeNamespace nsName inc exc = shouldIncludeEval nsName inc exc := by
  rw [shouldIncludeNamespace, shouldIncludeEval]
  simp only [matchEval_eq]

/-! ### Claim theorems: pattern matching and selection -/

/-- C4: selector resolution.  A name is in scope iff the include pattern
set is empty or some include pattern matches, and no exclude pattern
matches (so exclude always wins and an empty include set matches
everything); and on scenario A, patterns frontend-asterisk,
backend-asterisk, bpfman with exclude asterisk-dev resolve the seven
candidate names to exactly frontend-prod, backend-prod and bpfman. -/
theorem selector_resolution :
    (∀ (nsName : GoStr) (inc exc : List Pattern),
      shouldIncludeNamespace nsName inc exc = true ↔
        ((inc = [] ∨ ∃ p ∈ inc, p.matchGo nsName = true) ∧
          ∀ p ∈ exc, p.matchGo nsName = false))
    ∧ ParsePatterns ["frontend-*".toList, "backend-*".toList,
        "bpfman".toList] = some scenarioAInc
    ∧ ParsePatterns ["*-dev".toList] = some scenarioAExc
    ∧ scenarioANames.filter
        (fun n => shouldIncludeNamespace n scenarioAInc scenarioAExc) =
      ["frontend-prod".toList, "backend-prod".toList, "bpfman".toList] := by
  refine ⟨?_, ?_, ?_, ?_⟩
  · intro nsName inc exc
    rw [shouldInclude_eq]
    simp only [Bool.and_eq_true, Bool.or_eq_true, Bool.not_eq_true',
      List.any_eq_true, List.any_eq_false, List.isEmpty_iff,
      Bool.not_eq_true]
  · rw [ParsePatterns_eval]
    decide
  · rw [ParsePatterns_eval]
    decide
  · simp only [shouldIncludeEval_eq]
    decide

/-- C4 witness: the resolution formula applied at a concrete name with
an empty selector, plus the concrete scenario A facts. -/
theorem selector_resolution_witness :
    shouldIncludeNamespace "bpfman".toList [] [] = true :=
  (selector_resolution.1 "bpfman".toList [] []).mpr
    ⟨Or.inl rfl, by simp⟩

theorem mapM_newPattern_ok :
    ∀ (ss : List GoStr) (ps : List Pattern), ss.mapM newPattern = some ps →
      ps.length = ss.length ∧ ∀ s ∈ ss, ∃ p, newPattern s = some p := by
  intro ss
  induction ss with
  | nil =>
    intro ps h
    simp only [List.mapM_nil, pure, Option.some.injEq] at h
    subst h
    simp
  | cons a rest ih =>
    intro ps h
    rw [List.mapM_cons] at h
    rcases ha : newPattern a with _ | p <;> rw [ha] at h
    · simp at h
    · rcases hr : rest.mapM newPattern with _ | qs <;> rw [hr] at h
      · simp at h
      · simp at h
        subst h
        obtain ⟨hlen, hall⟩ := ih qs hr
        refine ⟨by simp [hlen], ?_⟩
        intro s hs
        rcases List.mem_cons.mp hs with he | hmem
        · exact ⟨p, he ▸ ha⟩
        · exact hall s hmem

theorem mapM_newPattern_fail :
    ∀ (ss : List GoStr) (s : GoStr), s ∈ ss → newPattern s = none →
      ss.mapM newPattern = none := by
  intro ss
  induction ss with
  | nil =>
    intro s h
    simp at h
  | cons a rest ih =>
    intro s hmem hfail
    rw [List.mapM_cons]
    rcases List.mem_cons.mp hmem with he | hrest
    · subst he
      rw [hfail]
      simp
    · rcases ha : newPattern a with _ | p
      · simp
      · rw [ih s hrest hfail]
        simp

/-- C7: pattern construction.  The empty pattern and the malformed glob
bracket-invalid are rejected at construction with an error, so they never
reach matching; and ParsePatterns is all-or-nothing: a successful parse
compiles every input (and preserves their number), while any failing
input makes the whole construction fail with no partial list. -/
theorem pattern_construction :
    newPattern [] = none
    ∧ newPattern "[invalid".toList = none
    ∧ ParsePatterns [] = some []
    ∧ (∀ (ss : List GoStr) (ps : List Pattern), ParsePatterns ss = some ps →
        ps.length = ss.length ∧ ∀ s ∈ ss, ∃ p, newPattern s = some p)
    ∧ (∀ (ss : List GoStr) (s : GoStr), s ∈ ss → newPattern s = none →
        ParsePatterns ss = none) := by
  refine ⟨rfl, ?_, rfl, ?_, ?_⟩
  · rw [← newPatternEval_eq]
    decide
  · intro ss ps h
    rcases hss : ss with _ | ⟨s0, rest⟩
    · subst hss
      rw [ParsePatterns, if_pos rfl] at h
      cases h
      simp
    · subst hss
      rw [ParsePatterns, if_neg (by simp)] at h
      exact mapM_newPattern_ok _ _ h
  · intro ss s hmem hfail
    rcases hss : ss with _ | ⟨s0, rest⟩
    · subst hss
      simp at hmem
    · subst hss
      rw [ParsePatterns, if_neg (by simp)]
      exact mapM_newPattern_fail _ s hmem hfail

/-- C7 witness: construction applied at concrete inputs — a list holding
the empty pattern fails as a whole, and a fully valid list compiles with
its length preserved. -/
theorem pattern_construction_witness :
    ParsePatterns ["default".toList, [], "go-*".toList] = none :=
  pattern_construction.2.2.2.2 ["default".toList, [], "go-*".toList] []
    (by simp) rfl

/-! ### Declarative glob semantics (from the spec)

The spec describes glob matching as: `*` matches any run of characters
including the empty run, `?` matches exactly one character, `[set]`
matches one character from the set, anchored over the whole name.  The
following grammar and matcher are written from those words, to be
compared with the embedded Go matcher on the corresponding rendered
patterns. -/

/-- Modelled from the spec: one glob token — a literal character, `?`,
`*`, or a character set. -/
inductive GTok
  | lit (c : Char)
  | one
  | many
  | set (cs : List Char)
deriving DecidableEq

/-- Modelled from the spec: anchored shell-style matching — a literal
matches itself, `?` matches exactly one character, `[set]` matches one
character from the set, `*` matches any run of characters including the
empty one, and the whole name must be consumed. -/
def gmatch : List GTok → GoStr → Bool
  | [], [] => true
  | [], _ :: _ => false
  | .lit _ :: _, [] => false
  | .lit c :: ts, x :: xs => c == x && gmatch ts xs
  | .one :: _, [] => false
  | .one :: ts, _ :: xs => gmatch ts xs
  | .set _ :: _, [] => false
  | .set cs :: ts, x :: xs => cs.contains x && gmatch ts xs
  | .many :: ts, xs =>
    gmatch ts xs ||
      (match xs with
       | [] => false
       | _ :: xs2 => gmatch (GTok.many :: ts) xs2)
termination_by ts xs => (ts.length, xs.length)
decreasing_by
  all_goals simp_wf
  all_goals first
    | (left; omega)
    | (right; omega)
    | omega

/-- A character with no special meaning for the Go matcher, inside or
outside a set. -/
def plainChar (c : Char) : Bool :=
  !(c = '*' || c = '?' || c = '[' || c = ']' || c = '\\' || c = '/' ||
    c = '-' || c = '^')

/-- Well-formed tokens: literals and set members are plain, sets are
non-empty. -/
def WfTok : GTok → Bool
  | .lit c => plainChar c
  | .one => true
  | .many => true
  | .set cs => !cs.isEmpty && cs.all plainChar

/-- Renders a token back to Go pattern syntax. -/
def renderTok : GTok → GoStr
  | .lit c => [c]
  | .one => ['?']
  | .many => ['*']
  | .set cs => '[' :: cs ++ [']']

/-- Renders a token list to a Go pattern string. -/
def render (ts : List GTok) : GoStr := (ts.map renderTok).join

/-- Token-level counterpart of `dropStars`. -/
def stripManys : List GTok → Bool × List GTok
  | [] => (false, [])
  | t :: ts =>
    if t = GTok.many then (true, (stripManys ts).2)
    else (false, t :: ts)

/-- Token-level counterpart of `scanBody`: splits at the first `*`. -/
def takeChunk : List GTok → List GTok × List GTok
  | [] => ([], [])
  | t :: ts =>
    if t = GTok.many then ([], t :: ts)
    else ((t :: (takeChunk ts).1), (takeChunk ts).2)

/-- Positional matching of a star-free token list against a prefix of
the name: returns the unconsumed tail on success. -/
def chunkConsume : List GTok → GoStr → Option GoStr
  | [], s => some s
  | .lit _ :: _, [] => none
  | .lit c :: ts, x :: xs => if c == x then chunkConsume ts xs else none
  | .one :: _, [] => none
  | .one :: ts, _ :: xs => chunkConsume ts xs
  | .set _ :: _, [] => none
  | .set cs :: ts, x :: xs =>
    if cs.contains x then chunkConsume ts xs else none
  | .many :: _, _ => none

/-- Star-free token lists. -/
def starFree (ts : List GTok) : Bool := ts.all (fun t => !(t == GTok.many))

theorem renderTok_ne_nil (t : GTok) : renderTok t ≠ [] := by
  cases t <;> simp [renderTok]

theorem render_nil : render [] = [] := rfl

theorem render_cons (t : GTok) (ts : List GTok) :
    render (t :: ts) = renderTok t ++ render ts := by
  simp [render]

theorem render_eq_nil {ts : List GTok} (h : render ts = []) : ts = [] := by
  cases ts with
  | nil => rfl
  | cons t ts =>
    rw [render_cons] at h
    rcases List.append_eq_nil.mp h with ⟨h1, _⟩
    exact absurd h1 (renderTok_ne_nil t)

theorem takeChunk_append (ts : List GTok) :
    (takeChunk ts).1 ++ (takeChunk ts).2 = ts := by
  induction ts with
  | nil => rfl
  | cons t ts ih =>
    rw [takeChunk]
    split
    · simp
    · simp [ih]

theorem takeChunk_starFree (ts : List GTok) : starFree (takeChunk ts).1 = true := by
  induction ts with
  | nil => rfl
  | cons t ts ih =>
    rw [takeChunk]
    split
    · rfl
    · rename_i ht
      simp [starFree, List.all_cons] at ih ⊢
      exact ⟨ht, ih⟩

theorem takeChunk_rest_shape (ts : List GTok) :
    (takeChunk ts).2 = [] ∨ ∃ ts4, (takeChunk ts).2 = GTok.many :: ts4 := by
  induction ts with
  | nil => left; rfl
  | cons t ts ih =>
    rw [takeChunk]
    split
    · rename_i ht
      subst ht
      right
      exact ⟨ts, rfl⟩
    · simpa using ih

theorem stripManys_false_eq {ts : List GTok} (h : (stripManys ts).1 = false) :
    (stripManys ts).2 = ts := by
  cases ts with
  | nil => rfl
  | cons t ts =>
    rw [stripManys] at h ⊢
    split at h
    · simp at h
    · simp_all

theorem stripManys_length (ts : List GTok) :
    (stripManys ts).2.length ≤ ts.length := by
  induction ts with
  | nil => simp [stripManys]
  | cons t ts ih =>
    rw [stripManys]
    split
    · simp only [List.length_cons]
      omega
    · simp

theorem stripManys_true_lt {ts : List GTok} (h : (stripManys ts).1 = true) :
    (stripManys ts).2.length < ts.length := by
  cases ts with
  | nil => simp [stripManys] at h
  | cons t ts =>
    rw [stripManys] at h ⊢
    split at h
    · rename_i ht
      simp only [ht, if_pos]
      have := stripManys_length ts
      simp only [List.length_cons]
      omega
    · simp at h

theorem stripManys_all {ts : List GTok} (h : ts.all WfTok = true) :
    (stripManys ts).2.all WfTok = true := by
  induction ts with
  | nil => simpa [stripManys] using h
  | cons t ts ih =>
    rw [stripManys]
    simp only [List.all_cons, Bool.and_eq_true] at h
    split
    · exact ih h.2
    · simp [List.all_cons, h.1, h.2]

theorem stripManys_head (ts : List GTok) :
    (stripManys ts).2 = [] ∨
      ∃ t ts4, (stripManys ts).2 = t :: ts4 ∧ t ≠ GTok.many := by
  induction ts with
  | nil => left; rfl
  | cons t ts ih =>
    rw [stripManys]
    split
    · simpa using ih
    · rename_i ht
      right
      exact ⟨t, ts, rfl, ht⟩

theorem charBeq_comm (a b : Char) : (a == b) = (b == a) := by
  by_cases h : a = b
  · simp [h]
  · have h2 : b ≠ a := fun hq => h hq.symm
    simp [h, h2]

theorem le_and_le_eq (lo r : Char) :
    (decide (lo ≤ r) && decide (r ≤ lo)) = (lo == r) := by
  by_cases he : lo = r
  · simp [he]
  · have hne : ¬(lo ≤ r ∧ r ≤ lo) := fun ⟨h1, h2⟩ => he (le_antisymm h1 h2)
    rcases hlr : decide (lo ≤ r) with _ | _
    · simp [he]
    · rcases hrl : decide (r ≤ lo) with _ | _
      · simp [he]
      · exact absurd ⟨of_decide_eq_true hlr, of_decide_eq_true hrl⟩ hne

theorem chunkConsume_drop {sf : List GTok} :
    ∀ {s t : GoStr}, chunkConsume sf s = some t → t = s.drop sf.length := by
  induction sf with
  | nil =>
    intro s t h
    rw [chunkConsume] at h
    cases h
    rfl
  | cons tok ts ih =>
    intro s t h
    cases tok with
    | lit c =>
      cases s with
      | nil => simp [chunkConsume] at h
      | cons x xs =>
        rw [chunkConsume] at h
        split at h
        · simpa using ih h
        · simp at h
    | one =>
      cases s with
      | nil => simp [chunkConsume] at h
      | cons x xs =>
        rw [chunkConsume] at h
        simpa using ih h
    | many => simp [chunkConsume] at h
    | set cs =>
      cases s with
      | nil => simp [chunkConsume] at h
      | cons x xs =>
        rw [chunkConsume] at h
        split at h
        · simpa using ih h
        · simp at h

theorem plainChar_spec {c : Char} (h : plainChar c = true) :
    c ≠ '*' ∧ c ≠ '?' ∧ c ≠ '[' ∧ c ≠ ']' ∧ c ≠ '\\' ∧ c ≠ '/' ∧
      c ≠ '-' ∧ c ≠ '^' := by
  simp only [plainChar, Bool.not_eq_true', Bool.or_eq_false_iff,
    decide_eq_false_iff_not] at h
  tauto

theorem dropStars_render {ts : List GTok} (h : ts.all WfTok = true) :
    dropStars (render ts) = ((stripManys ts).1, render (stripManys ts).2) := by
  induction ts with
  | nil => rfl
  | cons t ts ih =>
    simp only [List.all_cons, Bool.and_eq_true] at h
    rw [render_cons, stripManys]
    by_cases ht : t = GTok.many
    · subst ht
      rw [show renderTok GTok.many = ['*'] from rfl]
      rw [show ['*'] ++ render ts = '*' :: render ts from rfl]
      rw [dropStars.eq_def]
      simp only [if_pos rfl, if_pos]
      rw [ih h.2]
    · have hc : ∀ c rest2, renderTok t = c :: rest2 → c ≠ '*' := by
        intro c rest2 hr
        cases t with
        | lit a =>
          have hp := plainChar_spec (by simpa [WfTok] using h.1)
          injection hr with h1 h2
          rw [← h1]
          exact hp.1
        | one =>
          injection hr with h1 h2
          rw [← h1]
          decide
        | many => exact absurd rfl ht
        | set cs =>
          injection hr with h1 h2
          rw [← h1]
          decide
      rcases hr : renderTok t with _ | ⟨c, rest2⟩
      · exact absurd hr (renderTok_ne_nil t)
      · rw [List.cons_append, dropStars.eq_def]
        simp only [if_neg (hc c rest2 hr), if_neg ht]
        rw [← List.cons_append, ← hr, ← render_cons]

theorem scanBody_class (cs : List Char) (h : cs.all plainChar = true)
    (rest : GoStr) :
    scanBody (cs ++ ']' :: rest) true =
      (cs ++ ']' :: (scanBody rest false).1, (scanBody rest false).2) := by
  induction cs with
  | nil =>
    rw [List.nil_append, scanBody.eq_def]
    simp
  | cons c cs ih =>
    simp only [List.all_cons, Bool.and_eq_true] at h
    have hp := plainChar_spec h.1
    rw [List.cons_append, scanBody.eq_def]
    simp only [if_neg hp.2.2.2.2.1, if_neg hp.2.2.1, if_neg hp.2.2.2.1,
      if_neg hp.1]
    rw [ih h.2]
    rfl

theorem scanBody_render {ts : List GTok} (h : ts.all WfTok = true) :
    scanBody (render ts) false =
      (render (takeChunk ts).1, render (takeChunk ts).2) := by
  induction ts with
  | nil => rfl
  | cons t ts ih =>
    simp only [List.all_cons, Bool.and_eq_true] at h
    rw [render_cons, takeChunk]
    cases t with
    | many =>
      rw [show renderTok GTok.many = ['*'] from rfl]
      rw [show ['*'] ++ render ts = '*' :: render ts from rfl]
      rw [scanBody.eq_def]
      simp [render_cons, renderTok, render_nil]
    | lit c =>
      have hp := plainChar_spec (by simpa [WfTok] using h.1)
      rw [show renderTok (GTok.lit c) = [c] from rfl, List.cons_append,
        List.nil_append, scanBody.eq_def]
      simp only [if_neg hp.2.2.2.2.1, if_neg hp.2.2.1, if_neg hp.2.2.2.1,
        if_neg hp.1, if_neg (show ¬(GTok.lit c = GTok.many) by simp)]
      rw [ih h.2]
      simp [render_cons, renderTok]
    | one =>
      rw [show renderTok GTok.one = ['?'] from rfl, List.cons_append,
        List.nil_append, scanBody.eq_def]
      simp only [if_neg (by decide : ¬('?' = '\\')),
        if_neg (by decide : ¬('?' = '[')), if_neg (by decide : ¬('?' = ']')),
        if_neg (by decide : ¬('?' = '*')),
        if_neg (by decide : ¬(GTok.one = GTok.many))]
      rw [ih h.2]
      simp [render_cons, renderTok]
    | set cs =>
      have hw := h.1
      simp only [WfTok, Bool.and_eq_true] at hw
      have hcs : cs.all plainChar = true := hw.2
      rw [show renderTok (GTok.set cs) = '[' :: cs ++ [']'] from rfl]
      rw [show ('[' :: cs ++ [']']) ++ render ts =
        '[' :: (cs ++ ']' :: render ts) from by simp]
      rw [scanBody.eq_def]
      simp only [if_neg (show ¬('[' = '\\') by decide), if_pos rfl,
        if_neg (show ¬(GTok.set cs = GTok.many) by simp)]
      rw [scanBody_class cs hcs (render ts), ih h.2]
      simp [render_cons, renderTok]

theorem scanChunk_render {ts : List GTok} (h : ts.all WfTok = true) :
    scanChunk (render ts) =
      ((stripManys ts).1,
        render (takeChunk (stripManys ts).2).1,
        render (takeChunk (stripManys ts).2).2) := by
  simp only [scanChunk, dropStars_render h,
    scanBody_render (stripManys_all h)]

theorem contains_eq_any (cs : List Char) (x : Char) :
    cs.contains x = cs.any (fun c => c == x) := by
  induction cs with
  | nil => rfl
  | cons c cs ih =>
    by_cases h : x = c
    · simp [h]
    · have h2 : ¬c = x := fun hq => h hq.symm
      simp [List.any_cons, ← ih, h, h2]

theorem parseRanges_render (r : Char) :
    ∀ (cs : List Char) (m : Bool) (k : Nat) (rest : GoStr),
      cs.all plainChar = true → (cs ≠ [] ∨ 0 < k) →
      (parseRanges r (cs ++ ']' :: rest) m k).map (fun x => (x.1, x.2.1)) =
        some (m || cs.any (fun c => c == r), rest) := by
  intro cs
  induction cs with
  | nil =>
    intro m k rest hall hk
    rcases hk with h | h
    · exact absurd rfl h
    · rw [List.nil_append, parseRanges]
      rw [dif_pos ⟨rfl, h⟩]
      simp
  | cons c cs ih =>
    intro m k rest hall hk
    simp only [List.all_cons, Bool.and_eq_true] at hall
    have hp := plainChar_spec hall.1
    rw [List.cons_append, parseRanges]
    rw [dif_neg (by
      simp only [List.head?_cons, Option.some.injEq, not_and]
      intro hq
      exact absurd hq hp.2.2.2.1)]
    have hg : getEsc (c :: (cs ++ ']' :: rest)) =
        some (c, ⟨cs ++ ']' :: rest, by simp⟩) := by
      rw [getEsc.eq_def]
      dsimp only
      rw [if_neg (by
        rintro (hq | hq)
        · exact hp.2.2.2.2.2.2.1 hq
        · exact hp.2.2.2.1 hq)]
      rw [if_neg hp.2.2.2.2.1]
      rw [if_neg (by simp)]
    rw [hg]
    dsimp only
    have hhead : ¬((cs ++ ']' :: rest).head? = some '-') := by
      cases cs with
      | nil => simp
      | cons d ds =>
        simp only [List.all_cons, Bool.and_eq_true] at hall
        have hpd := plainChar_spec hall.2.1
        simp only [List.cons_append, List.head?_cons, Option.some.injEq]
        exact hpd.2.2.2.2.2.2.1
    rw [if_neg hhead]
    have ihr := ih (m || (decide (c ≤ r) && decide (r ≤ c))) (k + 1) rest
      hall.2 (Or.inr (Nat.succ_pos k))
    rcases hres : parseRanges r (cs ++ ']' :: rest)
        (m || (decide (c ≤ r) && decide (r ≤ c))) (k + 1) with _ | ⟨mm, t, ht⟩
    · rw [hres] at ihr
      simp at ihr
    · rw [hres] at ihr
      simp only [Option.map_some] at ihr ⊢
      have h1 : mm = ((m || (decide (c ≤ r) && decide (r ≤ c))) ||
          cs.any (fun d => d == r)) := congrArg Prod.fst (Option.some.inj ihr)
      have h2 : t = rest := congrArg Prod.snd (Option.some.inj ihr)
      have hgoal : (some (mm, t) : Option (Bool × GoStr)) =
          some (m || (c :: cs).any (fun d => d == r), rest) := by
        rw [h1, h2, le_and_le_eq]
        simp [List.any_cons, Bool.or_assoc]
      exact hgoal

theorem render_set_cons (cs : List Char) (ts : List GTok) :
    render (GTok.set cs :: ts) = '[' :: (cs ++ ']' :: render ts) := by
  rw [render_cons, show renderTok (GTok.set cs) = '[' :: cs ++ [']'] from rfl]
  simp

theorem classChunk_head_ne (cs : List Char) (hne : cs ≠ [])
    (hall : cs.all plainChar = true) (tail : GoStr) :
    ¬((cs ++ ']' :: tail).head? = some '^') := by
  cases cs with
  | nil => exact absurd rfl hne
  | cons d ds =>
    simp only [List.all_cons, Bool.and_eq_true] at hall
    have hpd := plainChar_spec hall.1
    simp only [List.cons_append, List.head?_cons, Option.some.injEq]
    exact hpd.2.2.2.2.2.2.2

theorem wfSet_ne_nil {cs : List Char} (hw : WfTok (GTok.set cs) = true) :
    cs ≠ [] ∧ cs.all plainChar = true := by
  simp only [WfTok, Bool.and_eq_true, Bool.not_eq_true'] at hw
  refine ⟨?_, hw.2⟩
  intro hq
  subst hq
  simp at hw

theorem parseRangesF_render (r : Char) (cs : List Char) (m : Bool) (k : Nat)
    (rest : GoStr) (fuel : Nat) (hf : (cs ++ ']' :: rest).length < fuel)
    (hall : cs.all plainChar = true) (hk : cs ≠ [] ∨ 0 < k) :
    parseRangesF fuel r (cs ++ ']' :: rest) m k =
      some (m || cs.any (fun c => c == r), rest) := by
  rw [parseRangesF_eq fuel r _ m k hf]
  exact parseRanges_render r cs m k rest hall hk

theorem renderTok_length_pos (t : GTok) : 0 < (renderTok t).length :=
  List.length_pos.mpr (renderTok_ne_nil t)

theorem matchChunkF_render_failed :
    ∀ (sf : List GTok) (fuel : Nat), starFree sf = true →
      sf.all WfTok = true → (render sf).length < fuel →
      ∀ s, matchChunkF fuel (render sf) s true = some ([], false) := by
  intro sf
  induction sf with
  | nil =>
    intro fuel _ _ hlen s
    rcases fuel with _ | fuel
    · omega
    · rw [show render [] = [] from rfl, matchChunkF.eq_def]
      rfl
  | cons t ts ih =>
    intro fuel hsf hwf hlen s
    simp only [starFree, List.all_cons, Bool.and_eq_true] at hsf hwf
    have htokpos := renderTok_length_pos t
    rw [render_cons] at hlen ⊢
    simp only [List.length_append] at hlen
    rcases fuel with _ | fuel
    · omega
    · have ihs : ∀ s2, matchChunkF fuel (render ts) s2 true = some ([], false) :=
        fun s2 => ih fuel hsf.2 hwf.2 (by omega) s2
      have hc : ∀ s2 : GoStr, (true || List.isEmpty s2) = true := fun _ => rfl
      cases t with
      | many => simp at hsf
      | lit c =>
        have hp := plainChar_spec (by simpa [WfTok] using hwf.1)
        rw [show renderTok (GTok.lit c) = [c] from rfl, List.cons_append,
          List.nil_append, matchChunkF.eq_def]
        dsimp only
        rw [if_neg hp.2.2.1, if_neg hp.2.1, if_neg hp.2.2.2.2.1]
        simp only [if_pos (hc s)]
        exact ihs s
      | one =>
        rw [show renderTok GTok.one = ['?'] from rfl, List.cons_append,
          List.nil_append, matchChunkF.eq_def]
        dsimp only
        rw [if_neg (show ¬('?' = '[') by decide), if_pos rfl]
        simp only [if_pos (hc s)]
        exact ihs s
      | set cs =>
        obtain ⟨hne, hall⟩ := wfSet_ne_nil hwf.1
        rw [show renderTok (GTok.set cs) = '[' :: cs ++ [']'] from rfl]
        rw [show ('[' :: cs ++ [']']) ++ render ts =
          '[' :: (cs ++ ']' :: render ts) from by simp]
        rw [matchChunkF.eq_def]
        dsimp only
        rw [if_pos rfl]
        rw [if_neg (classChunk_head_ne cs hne hall (render ts))]
        simp only [if_pos (hc s)]
        rw [parseRangesF_render (Char.ofNat 0) cs false 0 (render ts) _
          (by omega) hall (Or.inl hne)]
        dsimp only
        simp only [Bool.true_or]
        exact ihs s

theorem matchChunkF_render :
    ∀ (sf : List GTok) (fuel : Nat), starFree sf = true →
      sf.all WfTok = true → (render sf).length < fuel →
      ∀ (s : GoStr), s.all (fun c => !(c = '/')) = true →
      matchChunkF fuel (render sf) s false =
        (match chunkConsume sf s with
         | some t => some (t, true)
         | none => some ([], false)) := by
  intro sf
  induction sf with
  | nil =>
    intro fuel _ _ hlen s _
    rcases fuel with _ | fuel
    · omega
    · rw [show render [] = [] from rfl, matchChunkF.eq_def, chunkConsume]
      rfl
  | cons t ts ih =>
    intro fuel hsf hwf hlen s hs
    simp only [starFree, List.all_cons, Bool.and_eq_true] at hsf hwf
    have htokpos := renderTok_length_pos t
    rw [render_cons] at hlen ⊢
    simp only [List.length_append] at hlen
    rcases fuel with _ | fuel
    · omega
    · have ihf : ∀ s2, matchChunkF fuel (render ts) s2 true = some ([], false) :=
        fun s2 => matchChunkF_render_failed ts fuel hsf.2 hwf.2 (by omega) s2
      cases t with
      | many => simp at hsf
      | lit c =>
        have hp := plainChar_spec (by simpa [WfTok] using hwf.1)
        rw [show renderTok (GTok.lit c) = [c] from rfl, List.cons_append,
          List.nil_append, matchChunkF.eq_def]
        dsimp only
        rw [if_neg hp.2.2.1, if_neg hp.2.1, if_neg hp.2.2.2.2.1]
        cases s with
        | nil =>
          have hcn : (false || List.isEmpty ([] : GoStr)) = true := rfl
          simp only [if_pos hcn]
          rw [ihf [], chunkConsume]
        | cons x xs =>
          have hcn : ¬((false || List.isEmpty (x :: xs)) = true) := by simp
          simp only [if_neg hcn, List.headD_cons, List.tail_cons]
          simp only [List.all_cons, Bool.and_eq_true] at hs
          rcases hcx : (c == x) with _ | _
          · simp only [hcx, Bool.not_false]
            rw [ihf xs, chunkConsume, if_neg (by simp [hcx])]
          · simp only [hcx, Bool.not_true]
            rw [ih fuel hsf.2 hwf.2 (by omega) xs hs.2, chunkConsume,
              if_pos hcx]
      | one =>
        rw [show renderTok GTok.one = ['?'] from rfl, List.cons_append,
          List.nil_append, matchChunkF.eq_def]
        dsimp only
        rw [if_neg (show ¬('?' = '[') by decide), if_pos rfl]
        cases s with
        | nil =>
          have hcn : (false || List.isEmpty ([] : GoStr)) = true := rfl
          simp only [if_pos hcn]
          rw [ihf [], chunkConsume]
        | cons x xs =>
          have hcn : ¬((false || List.isEmpty (x :: xs)) = true) := by simp
          simp only [if_neg hcn, List.headD_cons, List.tail_cons]
          simp only [List.all_cons, Bool.and_eq_true] at hs
          have hx : ¬(x = '/') := by simpa using hs.1
          simp only [decide_eq_false hx]
          rw [ih fuel hsf.2 hwf.2 (by omega) xs hs.2, chunkConsume]
      | set cs =>
        obtain ⟨hne, hall⟩ := wfSet_ne_nil hwf.1
        rw [show renderTok (GTok.set cs) = '[' :: cs ++ [']'] from rfl]
        rw [show ('[' :: cs ++ [']']) ++ render ts =
          '[' :: (cs ++ ']' :: render ts) from by simp]
        rw [matchChunkF.eq_def]
        dsimp only
        rw [if_pos rfl]
        rw [if_neg (classChunk_head_ne cs hne hall (render ts))]
        have hdec : decide ((cs ++ ']' :: render ts).head? = some '^') =
            false := by
          simp only [decide_eq_false_iff_not]
          exact classChunk_head_ne cs hne hall (render ts)
        cases s with
        | nil =>
          have hcn : (false || List.isEmpty ([] : GoStr)) = true := rfl
          simp only [if_pos hcn]
          rw [parseRangesF_render (Char.ofNat 0) cs false 0 (render ts) _
            (by omega) hall (Or.inl hne)]
          dsimp only
          simp only [hcn, Bool.true_or]
          rw [ihf [], chunkConsume]
        | cons x xs =>
          have hcn : ¬((false || List.isEmpty (x :: xs)) = true) := by simp
          simp only [if_neg hcn, List.headD_cons, List.tail_cons]
          rw [parseRangesF_render x cs false 0 (render ts) _
            (by omega) hall (Or.inl hne)]
          dsimp only
          have h1 : (false || List.isEmpty (x :: xs)) = false := rfl
          simp only [h1, Bool.false_or, hdec]
          simp only [List.all_cons, Bool.and_eq_true] at hs
          rcases hmem : cs.any (fun c => c == x) with _ | _
          · rw [show ((false == false : Bool)) = true from rfl]
            rw [ihf xs, chunkConsume,
              if_neg (by rw [contains_eq_any, hmem]; simp)]
          · rw [show ((true == false : Bool)) = false from rfl]
            rw [ih fuel hsf.2 hwf.2 (by omega) xs hs.2, chunkConsume,
              if_pos (by rw [contains_eq_any, hmem])]

theorem gmatch_many_eq (ts : List GTok) (n : GoStr) :
    gmatch (GTok.many :: ts) n =
      (gmatch ts n ||
        match n with
        | [] => false
        | _ :: xs2 => gmatch (GTok.many :: ts) xs2) := by
  rw [gmatch.eq_def]

theorem gmatch_nil_name (n : GoStr) : gmatch [] n = n.isEmpty := by
  cases n with
  | nil => rw [gmatch]; rfl
  | cons x xs => rw [gmatch]; rfl

theorem bool_eq_of_iff {a b : Bool} (h : a = true ↔ b = true) : a = b := by
  cases a <;> cases b <;> simp_all

theorem render_append (a b : List GTok) :
    render (a ++ b) = render a ++ render b := by
  simp [render]

theorem gmatch_chunk :
    ∀ (sf : List GTok), starFree sf = true → ∀ (rest : List GTok) (n : GoStr),
      gmatch (sf ++ rest) n =
        (match chunkConsume sf n with
         | some t => gmatch rest t
         | none => false) := by
  intro sf
  induction sf with
  | nil =>
    intro _ rest n
    rw [List.nil_append, chunkConsume]
  | cons t ts ih =>
    intro hsf rest n
    simp only [starFree, List.all_cons, Bool.and_eq_true] at hsf
    have ih2 := ih hsf.2 rest
    rw [List.cons_append]
    cases t with
    | many => simp at hsf
    | lit c =>
      cases n with
      | nil => rw [gmatch, chunkConsume]
      | cons x xs =>
        rw [gmatch, chunkConsume]
        rcases hc : (c == x) with _ | _
        · simp
        · simp [ih2 xs]
    | one =>
      cases n with
      | nil => rw [gmatch, chunkConsume]
      | cons x xs =>
        rw [gmatch, chunkConsume]
        exact ih2 xs
    | set cs =>
      cases n with
      | nil => rw [gmatch, chunkConsume]
      | cons x xs =>
        rw [gmatch, chunkConsume]
        rcases hc : cs.contains x with _ | _
        · simp [hc]
        · simp [hc, ih2 xs]

theorem chunkConsume_le {sf : List GTok} :
    ∀ {s t : GoStr}, chunkConsume sf s = some t → sf.length ≤ s.length := by
  induction sf with
  | nil => intro s t _; simp
  | cons tok ts ih =>
    intro s t h
    cases tok with
    | lit c =>
      cases s with
      | nil => simp [chunkConsume] at h
      | cons x xs =>
        rw [chunkConsume] at h
        split at h
        · simpa using Nat.succ_le_succ (ih h)
        · simp at h
    | one =>
      cases s with
      | nil => simp [chunkConsume] at h
      | cons x xs =>
        rw [chunkConsume] at h
        simpa using Nat.succ_le_succ (ih h)
    | many => simp [chunkConsume] at h
    | set cs =>
      cases s with
      | nil => simp [chunkConsume] at h
      | cons x xs =>
        rw [chunkConsume] at h
        split at h
        · simpa using Nat.succ_le_succ (ih h)
        · simp at h

theorem gmatch_many_iff (ts : List GTok) :
    ∀ (n : GoStr),
      gmatch (GTok.many :: ts) n = true ↔
        ∃ i, i ≤ n.length ∧ gmatch ts (n.drop i) = true := by
  intro n
  induction n with
  | nil =>
    rw [gmatch_many_eq]
    simp only [Bool.or_false]
    constructor
    · intro h
      exact ⟨0, Nat.le_refl 0, by simpa using h⟩
    · rintro ⟨i, hi, h⟩
      have : i = 0 := Nat.le_zero.mp hi
      subst this
      simpa using h
  | cons x xs ih =>
    rw [gmatch_many_eq]
    simp only [Bool.or_eq_true]
    constructor
    · rintro (h | h)
      · exact ⟨0, by omega, by simpa using h⟩
      · obtain ⟨i, hi, h2⟩ := ih.mp h
        refine ⟨i + 1, by simpa using Nat.succ_le_succ hi, ?_⟩
        simpa using h2
    · rintro ⟨i, hi, h⟩
      cases i with
      | zero =>
        left
        simpa using h
      | succ j =>
        right
        refine ih.mpr ⟨j, by simpa using Nat.le_of_succ_le_succ hi, ?_⟩
        simpa using h

theorem gmatch_many_mono {ts : List GTok} {n : GoStr} (k : Nat)
    (h : gmatch (GTok.many :: ts) (n.drop k) = true) :
    gmatch (GTok.many :: ts) n = true := by
  obtain ⟨i, hi, h2⟩ := (gmatch_many_iff ts (n.drop k)).mp h
  rw [List.drop_drop] at h2
  apply (gmatch_many_iff ts n).mpr
  by_cases hk : k + i ≤ n.length
  · exact ⟨k + i, hk, h2⟩
  · refine ⟨n.length, Nat.le_refl _, ?_⟩
    rw [List.drop_length]
    rwa [List.drop_eq_nil_of_le (by omega)] at h2

theorem gmatch_stripManys :
    ∀ (ts : List GTok), (stripManys ts).1 = true → ∀ (n : GoStr),
      gmatch ts n = gmatch (GTok.many :: (stripManys ts).2) n := by
  intro ts
  induction ts with
  | nil => intro h; simp [stripManys] at h
  | cons t ts ih =>
    intro h n
    rw [stripManys] at h
    by_cases ht : t = GTok.many
    · subst ht
      rw [show (stripManys (GTok.many :: ts)).2 = (stripManys ts).2 from by
        rw [stripManys]; simp]
      rcases hs : (stripManys ts).1 with _ | _
      · rw [stripManys_false_eq hs]
      · apply bool_eq_of_iff
        rw [gmatch_many_iff, gmatch_many_iff]
        constructor
        · rintro ⟨i, hi, h2⟩
          rw [ih hs] at h2
          obtain ⟨j, hj, h3⟩ := (gmatch_many_iff _ _).mp h2
          rw [List.drop_drop] at h3
          by_cases hk : i + j ≤ n.length
          · exact ⟨i + j, hk, h3⟩
          · refine ⟨n.length, Nat.le_refl _, ?_⟩
            rw [List.drop_length]
            rwa [List.drop_eq_nil_of_le (by omega)] at h3
        · rintro ⟨i, hi, h2⟩
          refine ⟨i, hi, ?_⟩
          rw [ih hs]
          exact (gmatch_many_iff _ _).mpr ⟨0, Nat.zero_le _, by simpa using h2⟩
    · rw [if_neg ht] at h
      simp at h

theorem all_drop {p : Char → Bool} {n : GoStr} (h : n.all p = true)
    (k : Nat) : (n.drop k).all p = true := by
  rw [List.all_eq_true] at h ⊢
  intro x hx
  exact h x (List.drop_subset k n hx)

theorem contains_slash_false {n : GoStr}
    (h : n.all (fun c => !(c = '/')) = true) : n.contains '/' = false := by
  induction n with
  | nil => rfl
  | cons x xs ih =>
    simp only [List.all_cons, Bool.and_eq_true] at h
    have hx : ¬(x = '/') := by simpa using h.1
    have hx2 : ('/' : Char) ≠ x := fun hq => hx hq.symm
    simp [List.contains_cons, hx2]
    simpa using ih h.2

theorem takeChunk_all {ts : List GTok} (h : ts.all WfTok = true) :
    (takeChunk ts).1.all WfTok = true ∧ (takeChunk ts).2.all WfTok = true := by
  rw [← takeChunk_append ts, List.all_append, Bool.and_eq_true] at h
  exact h

theorem render_stripManys_le (ts : List GTok) :
    (render (stripManys ts).2).length ≤ (render ts).length := by
  induction ts with
  | nil => exact Nat.le_refl _
  | cons t ts ih =>
    rw [stripManys]
    by_cases ht : t = GTok.many
    · rw [if_pos ht]
      dsimp only
      rw [render_cons]
      have := renderTok_length_pos t
      simp only [List.length_append]
      omega
    · rw [if_neg ht]

theorem render_stripManys_lt {ts : List GTok} (h : (stripManys ts).1 = true) :
    (render (stripManys ts).2).length < (render ts).length := by
  cases ts with
  | nil => simp [stripManys] at h
  | cons t ts =>
    rw [stripManys] at h ⊢
    by_cases ht : t = GTok.many
    · rw [if_pos ht]
      dsimp only
      rw [render_cons]
      have h1 := render_stripManys_le ts
      have h2 := renderTok_length_pos t
      simp only [List.length_append]
      omega
    · rw [if_neg ht] at h
      simp at h

/-- One evaluation step of a star-free chunk followed by the remaining
pattern, used to phrase the search semantics. -/
def chunkStep (chunkTs restTs : List GTok) (s : GoStr) : Bool :=
  match chunkConsume chunkTs s with
  | some t => gmatch restTs t
  | none => false

/-- Modelled from the spec: the backtracking search of the Go star loop,
phrased over tokens — the first strictly positive skip after which the
star-free chunk consumes and, when the pattern ends there, exhausts the
name. -/
def specSearch (sf : List GTok) : GoStr → Bool → Option GoStr
  | [], _ => none
  | _ :: xs, re =>
    match chunkConsume sf xs with
    | some t => if re ∧ t ≠ [] then specSearch sf xs re else some t
    | none => specSearch sf xs re

theorem specSearch_drop {sf : List GTok} :
    ∀ {n : GoStr} {re : Bool} {t : GoStr}, specSearch sf n re = some t →
      ∃ k, t = n.drop k := by
  intro n
  induction n with
  | nil =>
    intro re t h
    rw [specSearch] at h
    cases h
  | cons x xs ih =>
    intro re t h
    rw [specSearch] at h
    rcases hcc : chunkConsume sf xs with _ | t1
    · rw [hcc] at h
      obtain ⟨k, hk⟩ := ih h
      exact ⟨k + 1, by simpa using hk⟩
    · rw [hcc] at h
      dsimp only at h
      by_cases hcond : re = true ∧ t1 ≠ []
      · rw [if_pos hcond] at h
        obtain ⟨k, hk⟩ := ih h
        exact ⟨k + 1, by simpa using hk⟩
      · rw [if_neg hcond] at h
        cases h
        exact ⟨sf.length + 1, by simpa using chunkConsume_drop hcc⟩

theorem starLoopF_render {sf : List GTok} (hsf : starFree sf = true)
    (hwf : sf.all WfTok = true) :
    ∀ (n : GoStr), n.all (fun c => !(c = '/')) = true → ∀ (re : Bool),
      starLoopF (render sf) n re = some (specSearch sf n re) := by
  intro n
  induction n with
  | nil => intro _ re; rfl
  | cons x xs ih =>
    intro hn re
    simp only [List.all_cons, Bool.and_eq_true] at hn
    have hx : ¬(x = '/') := by simpa using hn.1
    rw [starLoopF, specSearch, if_neg hx]
    rw [matchChunkF_render sf _ hsf hwf (by omega) xs hn.2]
    rcases hcc : chunkConsume sf xs with _ | t
    · exact ih hn.2 re
    · dsimp only
      rw [if_pos rfl]
      by_cases hcond : re = true ∧ t ≠ []
      · rw [if_pos hcond, if_pos hcond]
        exact ih hn.2 re
      · rw [if_neg hcond, if_neg hcond]

theorem checkRemainingF_render :
    ∀ (fuel : Nat) (ts : List GTok), ts.all WfTok = true →
      (render ts).length < fuel → checkRemainingF fuel (render ts) = some () := by
  intro fuel
  induction fuel with
  | zero => intro ts _ h; omega
  | succ fuel ih =>
    intro ts hwf hlen
    rw [checkRemainingF]
    by_cases hts : ts = []
    · subst hts
      rfl
    · have hne : render ts ≠ [] := fun h => hts (render_eq_nil h)
      rw [if_neg hne, scanChunk_render hwf]
      have hsall := stripManys_all hwf
      have htc := takeChunk_all hsall
      dsimp only
      rw [matchChunkF_render _ _ (takeChunk_starFree _) htc.1 (by omega) [] rfl]
      have hsplit : (render (takeChunk (stripManys ts).2).1).length +
          (render (takeChunk (stripManys ts).2).2).length =
          (render (stripManys ts).2).length := by
        rw [← List.length_append, ← render_append, takeChunk_append]
      have hle := render_stripManys_le ts
      have h0 : 0 < (render ts).length := List.length_pos.mpr hne
      have hb : (render (takeChunk (stripManys ts).2).2).length < fuel := by
        rcases stripManys_head ts with h1 | ⟨t0, ts4, hcons, hmany⟩
        · rw [h1] at hsplit ⊢
          simp only [takeChunk, render_nil, List.length_nil] at hsplit ⊢
          omega
        · have hcpos : 0 < (render (takeChunk (stripManys ts).2).1).length := by
            rw [hcons, takeChunk, if_neg hmany]
            dsimp only
            rw [render_cons]
            have := renderTok_length_pos t0
            simp only [List.length_append]
            omega
          omega
      rcases hcc : chunkConsume (takeChunk (stripManys ts).2).1 [] with _ | t
      · dsimp only
        exact ih _ htc.2 hb
      · dsimp only
        exact ih _ htc.2 hb

theorem sem_commit {chunkTs restTs : List GTok} {n t0 : GoStr}
    (hshape : restTs = [] ∨ ∃ ts4, restTs = GTok.many :: ts4)
    (hc : chunkConsume chunkTs n = some t0)
    (hok : t0 = [] ∨ restTs ≠ []) :
    ((∃ i, i ≤ n.length ∧ chunkStep chunkTs restTs (n.drop i) = true) ↔
      gmatch restTs t0 = true) := by
  constructor
  · rintro ⟨i, hi, hPi⟩
    rw [chunkStep] at hPi
    rcases hcc : chunkConsume chunkTs (n.drop i) with _ | ti
    · rw [hcc] at hPi
      simp at hPi
    · rw [hcc] at hPi
      dsimp only at hPi
      rcases hshape with hnil | ⟨ts4, hcons⟩
      · subst hnil
        rcases hok with ht0 | hne2
        · subst ht0
          rw [gmatch_nil_name]
          rfl
        · exact absurd rfl hne2
      · subst hcons
        have hti := chunkConsume_drop hcc
        rw [List.drop_drop] at hti
        have ht0d := chunkConsume_drop hc
        apply gmatch_many_mono i
        rw [ht0d, List.drop_drop, Nat.add_comm chunkTs.length i, ← hti]
        exact hPi
  · intro h
    exact ⟨0, Nat.zero_le _, by rw [List.drop_zero, chunkStep, hc]; exact h⟩

theorem sem_search {chunkTs restTs : List GTok} {re : Bool}
    (hshape : restTs = [] ∨ ∃ ts4, restTs = GTok.many :: ts4)
    (hre : re = true ↔ restTs = []) :
    ∀ (n : GoStr), chunkStep chunkTs restTs n = false →
      ((∃ i, i ≤ n.length ∧ chunkStep chunkTs restTs (n.drop i) = true) ↔
        (match specSearch chunkTs n re with
         | some t2 => gmatch restTs t2
         | none => false) = true) := by
  intro n
  induction n with
  | nil =>
    intro h0
    rw [specSearch]
    constructor
    · rintro ⟨i, hi, hPi⟩
      have hz : i = 0 := Nat.le_zero.mp hi
      subst hz
      rw [List.drop_zero, h0] at hPi
      exact absurd hPi (by decide)
    · intro h
      simp at h
  | cons x xs ih =>
    intro h0
    rw [specSearch]
    have hsplit : (∃ i, i ≤ (x :: xs).length ∧
        chunkStep chunkTs restTs ((x :: xs).drop i) = true) ↔
        (∃ j, j ≤ xs.length ∧ chunkStep chunkTs restTs (xs.drop j) = true) := by
      constructor
      · rintro ⟨i, hi, hPi⟩
        cases i with
        | zero =>
          rw [List.drop_zero, h0] at hPi
          exact absurd hPi (by decide)
        | succ j =>
          exact ⟨j, by simpa using Nat.le_of_succ_le_succ hi,
            by simpa using hPi⟩
      · rintro ⟨j, hj, hPj⟩
        exact ⟨j + 1, by simpa using Nat.succ_le_succ hj, by simpa using hPj⟩
    refine Iff.trans hsplit ?_
    rcases hcc : chunkConsume chunkTs xs with _ | t
    · exact ih (by rw [chunkStep, hcc])
    · dsimp only
      by_cases hcond : re = true ∧ t ≠ []
      · rw [if_pos hcond]
        apply ih
        rw [chunkStep, hcc]
        dsimp only
        rw [hre.mp hcond.1, gmatch_nil_name]
        rcases t with _ | ⟨a, t⟩
        · exact absurd rfl hcond.2
        · rfl
      · rw [if_neg hcond]
        dsimp only
        apply sem_commit hshape hcc
        by_cases ht : t = []
        · exact Or.inl ht
        · right
          intro hrt
          exact hcond ⟨hre.mpr hrt, ht⟩

theorem goMatchF_render :
    ∀ (fuel : Nat) (ts : List GTok) (n : GoStr),
      ts.all WfTok = true → n.all (fun c => !(c = '/')) = true →
      (render ts).length < fuel →
      goMatchF fuel (render ts) n = some (gmatch ts n) := by
  intro fuel
  induction fuel with
  | zero => intro ts n _ _ h; omega
  | succ fuel ih =>
    intro ts n hwf hn hlen
    rw [goMatchF]
    by_cases hts : ts = []
    · subst hts
      rw [if_pos (show render [] = [] from rfl), gmatch_nil_name]
    · have hne : render ts ≠ [] := fun h => hts (render_eq_nil h)
      rw [if_neg hne, scanChunk_render hwf]
      dsimp only
      have hsall := stripManys_all hwf
      have htc := takeChunk_all hsall
      have hsf := takeChunk_starFree (stripManys ts).2
      have hshape := takeChunk_rest_shape (stripManys ts).2
      have hsplit2 : (render (takeChunk (stripManys ts).2).1).length +
          (render (takeChunk (stripManys ts).2).2).length =
          (render (stripManys ts).2).length := by
        rw [← List.length_append, ← render_append, takeChunk_append]
      have hle := render_stripManys_le ts
      have h0len : 0 < (render ts).length := List.length_pos.mpr hne
      by_cases hsc : (stripManys ts).1 = true ∧
          render (takeChunk (stripManys ts).2).1 = []
      · rw [if_pos hsc]
        have hstrip : (stripManys ts).2 = [] := by
          rcases stripManys_head ts with h1 | ⟨t0, ts4, hcons, hmany⟩
          · exact h1
          · exfalso
            have hch : (takeChunk (stripManys ts).2).1 = [] :=
              render_eq_nil hsc.2
            rw [hcons, takeChunk, if_neg hmany] at hch
            simp at hch
        have hg : gmatch ts n = true := by
          rw [gmatch_stripManys ts hsc.1, hstrip]
          exact (gmatch_many_iff [] n).mpr
            ⟨n.length, Nat.le_refl _,
              by rw [List.drop_length, gmatch_nil_name]; rfl⟩
        rw [hg, contains_slash_false hn]
        rfl
      · rw [if_neg hsc]
        rw [matchChunkF_render _ _ hsf htc.1 (by omega) n hn]
        have hlt : (render (takeChunk (stripManys ts).2).2).length <
            (render ts).length := by
          rcases hstar : (stripManys ts).1 with _ | _
          · have hsts := stripManys_false_eq hstar
            have hcpos : 0 <
                (render (takeChunk (stripManys ts).2).1).length := by
              rcases stripManys_head ts with h1 | ⟨t0, ts4, hcons, hmany⟩
              · rw [h1] at hsts
                exact absurd hsts.symm hts
              · rw [hcons, takeChunk, if_neg hmany]
                dsimp only
                rw [render_cons]
                have := renderTok_length_pos t0
                simp only [List.length_append]
                omega
            have hde : (render (stripManys ts).2).length =
                (render ts).length := by rw [hsts]
            omega
          · have := render_stripManys_lt hstar
            omega
        have hchainT : (stripManys ts).1 = true → ∀ m : GoStr,
            (gmatch ts m = true ↔ ∃ i, i ≤ m.length ∧
              chunkStep (takeChunk (stripManys ts).2).1
                (takeChunk (stripManys ts).2).2 (m.drop i) = true) := by
          intro hstar m
          rw [gmatch_stripManys ts hstar, gmatch_many_iff]
          refine exists_congr fun i => and_congr_right fun _ => ?_
          conv_lhs => rw [← takeChunk_append (stripManys ts).2]
          rw [gmatch_chunk _ hsf, chunkStep]
        have hre : ((decide
            (render (takeChunk (stripManys ts).2).2 = [])) = true) ↔
            (takeChunk (stripManys ts).2).2 = [] :=
          ⟨fun h => render_eq_nil (of_decide_eq_true h),
           fun h => decide_eq_true (by rw [h]; rfl)⟩
        rcases hcc : chunkConsume (takeChunk (stripManys ts).2).1 n with _ | t
        · -- the chunk does not match at offset zero
          dsimp only
          rw [if_neg (by simp)]
          have hstep0 : chunkStep (takeChunk (stripManys ts).2).1
              (takeChunk (stripManys ts).2).2 n = false := by
            rw [chunkStep, hcc]
          rcases hstar : (stripManys ts).1 with _ | _
          · rw [if_neg (show ¬((false : Bool) = true) by decide)]
            rw [checkRemainingF_render _ _ htc.2 (by omega)]
            dsimp only
            have hts_eq : (takeChunk (stripManys ts).2).1 ++
                (takeChunk (stripManys ts).2).2 = ts := by
              rw [takeChunk_append, stripManys_false_eq hstar]
            have hg : gmatch ts n = false := by
              conv_lhs => rw [← hts_eq]
              rw [gmatch_chunk _ hsf, hcc]
            rw [hg]
          · rw [if_pos rfl]
            rw [starLoopF_render hsf htc.1 n hn]
            have hsem := sem_search hshape hre n hstep0
            rcases hss : specSearch (takeChunk (stripManys ts).2).1 n
                (decide (render (takeChunk (stripManys ts).2).2 = []))
                with _ | t2
            · rw [hss] at hsem
              dsimp only at hsem
              dsimp only
              rw [checkRemainingF_render _ _ htc.2 (by omega)]
              dsimp only
              have hg : gmatch ts n = false := by
                rcases hgm : gmatch ts n with _ | _
                · rfl
                · exact absurd (hsem.mp ((hchainT hstar n).mp hgm)) (by decide)
              rw [hg]
            · rw [hss] at hsem
              dsimp only at hsem
              dsimp only
              obtain ⟨k, hk⟩ := specSearch_drop hss
              rw [ih _ t2 htc.2 (by rw [hk]; exact all_drop hn k) (by omega)]
              rw [bool_eq_of_iff (Iff.trans (hchainT hstar n) hsem)]
        · -- the chunk matches at offset zero, consuming down to t
          dsimp only
          by_cases hcom : t = [] ∨ (takeChunk (stripManys ts).2).2 ≠ []
          · have hcomR : t = [] ∨
                render (takeChunk (stripManys ts).2).2 ≠ [] := by
              rcases hcom with h | h
              · exact Or.inl h
              · exact Or.inr (fun hq => h (render_eq_nil hq))
            rw [if_pos ⟨rfl, hcomR⟩]
            have hnt : t.all (fun c => !(c = '/')) = true := by
              rw [chunkConsume_drop hcc]
              exact all_drop hn _
            rw [ih _ t htc.2 hnt (by omega)]
            have hg : gmatch ts n =
                gmatch (takeChunk (stripManys ts).2).2 t := by
              rcases hstar : (stripManys ts).1 with _ | _
              · have hts_eq : (takeChunk (stripManys ts).2).1 ++
                    (takeChunk (stripManys ts).2).2 = ts := by
                  rw [takeChunk_append, stripManys_false_eq hstar]
                conv_lhs => rw [← hts_eq]
                rw [gmatch_chunk _ hsf, hcc]
              · exact bool_eq_of_iff
                  (Iff.trans (hchainT hstar n) (sem_commit hshape hcc hcom))
            rw [hg]
          · rw [if_neg (by
              rintro ⟨_, h | h⟩
              · exact hcom (Or.inl h)
              · exact hcom (Or.inr fun hq => h (by rw [hq]; rfl)))]
            have ht2 : ¬(t = []) ∧ (takeChunk (stripManys ts).2).2 = [] := by
              constructor
              · exact fun h => hcom (Or.inl h)
              · by_contra h
                exact hcom (Or.inr h)
            have hstep0 : chunkStep (takeChunk (stripManys ts).2).1
                (takeChunk (stripManys ts).2).2 n = false := by
              rw [chunkStep, hcc]
              dsimp only
              rw [ht2.2, gmatch_nil_name]
              rcases t with _ | ⟨a, t⟩
              · exact absurd rfl ht2.1
              · rfl
            rcases hstar : (stripManys ts).1 with _ | _
            · rw [if_neg (show ¬((false : Bool) = true) by decide)]
              rw [checkRemainingF_render _ _ htc.2 (by omega)]
              dsimp only
              have hts_eq : (takeChunk (stripManys ts).2).1 ++
                  (takeChunk (stripManys ts).2).2 = ts := by
                rw [takeChunk_append, stripManys_false_eq hstar]
              have hg : gmatch ts n = false := by
                conv_lhs => rw [← hts_eq]
                rw [gmatch_chunk _ hsf]
                rw [show (match chunkConsume (takeChunk (stripManys ts).2).1 n
                    with
                    | some t => gmatch (takeChunk (stripManys ts).2).2 t
                    | none => false) =
                  chunkStep (takeChunk (stripManys ts).2).1
                    (takeChunk (stripManys ts).2).2 n from by rw [chunkStep]]
                exact hstep0
              rw [hg]
            · rw [if_pos rfl]
              rw [starLoopF_render hsf htc.1 n hn]
              have hsem := sem_search hshape hre n hstep0
              rcases hss : specSearch (takeChunk (stripManys ts).2).1 n
                  (decide (render (takeChunk (stripManys ts).2).2 = []))
                  with _ | t2
              · rw [hss] at hsem
                dsimp only at hsem
                dsimp only
                rw [checkRemainingF_render _ _ htc.2 (by omega)]
                dsimp only
                have hg : gmatch ts n = false := by
                  rcases hgm : gmatch ts n with _ | _
                  · rfl
                  · exact absurd (hsem.mp ((hchainT hstar n).mp hgm))
                      (by decide)
                rw [hg]
              · rw [hss] at hsem
                dsimp only at hsem
                dsimp only
                obtain ⟨k, hk⟩ := specSearch_drop hss
                rw [ih _ t2 htc.2 (by rw [hk]; exact all_drop hn k)
                  (by omega)]
                rw [bool_eq_of_iff (Iff.trans (hchainT hstar n) hsem)]

theorem goMatch_render (ts : List GTok) (n : GoStr)
    (hwf : ts.all WfTok = true)
    (hn : n.all (fun c => !(c = '/')) = true) :
    goMatch (render ts) n = some (gmatch ts n) := by
  rw [← goMatchF_eq ((render ts).length + 1) _ n (by omega)]
  exact goMatchF_render _ ts n hwf hn (by omega)

/-- C8: Match semantics: a compiled literal pattern matches a name iff
the name equals the pattern text exactly; a compiled glob pattern
applies shell-style matching anchored over the whole name — on any
well-formed token list (`*` an arbitrary run, `?` exactly one
character, `[set]` one character from the set, rendered to Go syntax),
`filepath.Match` decides exactly the declarative anchored semantics
`gmatch`, so a partial match is not a match; in particular the compiled
pattern `"test-?"` matches `"test-1"` and `"test-a"` but not
`"test-10"` or `"test"`. -/
theorem pattern_match_semantics :
    (∀ (p : Pattern) (n : GoStr), p.isGlob = false →
        (p.matchGo n = true ↔ p.original = n)) ∧
    (∀ (ts : List GTok) (n : GoStr), ts.all WfTok = true →
        n.all (fun c => !(c = '/')) = true →
        goMatch (render ts) n = some (gmatch ts n)) ∧
    (∀ p : Pattern,
        newPattern ('t' :: 'e' :: 's' :: 't' :: '-' :: '?' :: []) = some p →
        p.matchGo ('t' :: 'e' :: 's' :: 't' :: '-' :: '1' :: []) = true ∧
        p.matchGo ('t' :: 'e' :: 's' :: 't' :: '-' :: 'a' :: []) = true ∧
        p.matchGo ('t' :: 'e' :: 's' :: 't' :: '-' :: '1' :: '0' :: []) =
          false ∧
        p.matchGo ('t' :: 'e' :: 's' :: 't' :: []) = false) := by
  refine ⟨?_, ?_, ?_⟩
  · intro p n hg
    rw [Pattern.matchGo, if_neg (by simp [hg])]
    exact beq_iff_eq
  · intro ts n hwf hn
    exact goMatch_render ts n hwf hn
  · intro p hp
    rw [← newPatternEval_eq] at hp
    rw [show newPatternEval ('t' :: 'e' :: 's' :: 't' :: '-' :: '?' :: []) =
      some ⟨'t' :: 'e' :: 's' :: 't' :: '-' :: '?' :: [], true⟩ from rfl] at hp
    cases hp
    refine ⟨?_, ?_, ?_, ?_⟩ <;>
      · rw [← matchEval_eq]
        decide

theorem pattern_match_semantics_witness :
    (Pattern.matchGo ⟨'a' :: 'b' :: [], false⟩ ('a' :: 'b' :: []) = true ↔
      ('a' :: 'b' :: [] : GoStr) = 'a' :: 'b' :: []) ∧
    goMatch (render (GTok.lit 'a' :: GTok.many :: []))
        ('a' :: 'b' :: 'c' :: []) =
      some (gmatch (GTok.lit 'a' :: GTok.many :: [])
        ('a' :: 'b' :: 'c' :: [])) ∧
    Pattern.matchGo ⟨'t' :: 'e' :: 's' :: 't' :: '-' :: '?' :: [], true⟩
        ('t' :: 'e' :: 's' :: 't' :: '-' :: '1' :: []) = true :=
  ⟨pattern_match_semantics.1 ⟨'a' :: 'b' :: [], false⟩ ('a' :: 'b' :: []) rfl,
   pattern_match_semantics.2.1 (GTok.lit 'a' :: GTok.many :: [])
     ('a' :: 'b' :: 'c' :: []) (by decide) (by decide),
   (pattern_match_semantics.2.2
     ⟨'t' :: 'e' :: 's' :: 't' :: '-' :: '?' :: [], true⟩
     (by rw [← newPatternEval_eq]; rfl)).1⟩

end KatVerify
